import Mathlib

/-!
Shallow embedding of the deterministic amount-extraction engine of the
scan-sum-tally repository: `src/utils/numberParser.ts` (the second, active
definitions of `parseAmount` and `detectCurrency`) and
`src/utils/amountExtraction.ts` (`extractAmount` and its helpers).

Strings are modelled as `List Char` (Unicode scalar values, as in JS).
Amounts and confidences are modelled as `ℚ`: every numeric literal in the
source (`0.3`, `0.99`, `1e-6`, …) is an exact decimal, and all arithmetic
performed on them (addition, multiplication by decimal constants,
comparison) is exact in the ranges involved.

JS-specific behaviour that the source relies on is modelled explicitly:
the `\s` character class, the `\b` word boundary (word characters are
ASCII `[A-Za-z0-9_]`), case-insensitive matching of the `/i` regexes
(which, without the `u` flag, only folds ASCII letters — the only cased
letters occurring in the patterns), and `String.prototype.toLowerCase`
restricted to its ASCII action (the keyword tables contain no cased
non-ASCII letters, and no Unicode lowercasing produces an ASCII digit,
which is the only property the theorems below depend on).
-/

/-- JS `\s` class (also the set trimmed by `String.prototype.trim`):
space, tab, line feed, vertical tab, form feed, carriage return, NBSP,
Ogham space, the U+2000–U+200A range, line/paragraph separator, narrow
NBSP, mathematical space, ideographic space, BOM. -/
def isJsWS (c : Char) : Bool :=
  c.toNat = 0x20 || c.toNat = 0x09 || c.toNat = 0x0a || c.toNat = 0x0b ||
  c.toNat = 0x0c || c.toNat = 0x0d || c.toNat = 0xa0 || c.toNat = 0x1680 ||
  (0x2000 ≤ c.toNat && c.toNat ≤ 0x200a) || c.toNat = 0x2028 || c.toNat = 0x2029 ||
  c.toNat = 0x202f || c.toNat = 0x205f || c.toNat = 0x3000 || c.toNat = 0xfeff

/-- ASCII digit test (`\d`, i.e. `[0-9]`, the only digits JS regexes match). -/
def isDigitC (c : Char) : Bool :=
  0x30 ≤ c.toNat && c.toNat ≤ 0x39

/-- JS regex word character, as used by the `\b` assertion: `[A-Za-z0-9_]`. -/
def isJsWord (c : Char) : Bool :=
  (0x61 ≤ c.toNat && c.toNat ≤ 0x7a) || (0x41 ≤ c.toNat && c.toNat ≤ 0x5a) ||
  (0x30 ≤ c.toNat && c.toNat ≤ 0x39) || c.toNat = 0x5f

/-- ASCII lowercasing, the action of `toLowerCase` (and of `/i` matching
without the `u` flag) on the character sets occurring in the source. -/
def jsLower (c : Char) : Char :=
  if 0x41 ≤ c.toNat && c.toNat ≤ 0x5a then Char.ofNat (c.toNat + 32) else c

/-- Does `needle` occur as a contiguous run inside `haystack`
(JS `String.prototype.includes`)? -/
def occursIn (haystack needle : List Char) : Bool :=
  needle.isPrefixOf haystack ||
    match haystack with
    | [] => false
    | _ :: t => occursIn t needle

/-- Case-insensitive (ASCII-folded) prefix test, the `/i` matching of a
literal alternative at a fixed position. -/
def ciLeads : List Char → List Char → Bool
  | [], _ => true
  | _ :: _, [] => false
  | a :: as, c :: cs => (jsLower a = jsLower c) && ciLeads as cs

/-- Case-insensitive occurrence test: `/lit/i.test(haystack)`. -/
def ciOccursIn (haystack needle : List Char) : Bool :=
  ciLeads needle haystack ||
    match haystack with
    | [] => false
    | _ :: t => ciOccursIn t needle

/-! ## numberParser.ts — digit normalisation -/

/-- The `arabicToWestern` lookup table of `numberParser.ts`. -/
def arabicToWestern (c : Char) : Option Char :=
  List.lookup c
    [('٠', '0'), ('١', '1'), ('٢', '2'), ('٣', '3'), ('٤', '4'),
     ('٥', '5'), ('٦', '6'), ('٧', '7'), ('٨', '8'), ('٩', '9')]

/-- The `persianToWestern` lookup table of `numberParser.ts`. -/
def persianToWestern (c : Char) : Option Char :=
  List.lookup c
    [('۰', '0'), ('۱', '1'), ('۲', '2'), ('۳', '3'), ('۴', '4'),
     ('۵', '5'), ('۶', '6'), ('۷', '7'), ('۸', '8'), ('۹', '9')]

/-- `normalizeDigits`: map every Arabic-Indic or Extended-Arabic digit to
its ASCII counterpart, leaving all other characters unchanged
(`arabicToWestern[char] || persianToWestern[char] || char`). -/
def normalizeDigits (s : List Char) : List Char :=
  s.map fun c => ((arabicToWestern c).or (persianToWestern c)).getD c

/-! ## numberParser.ts — parseAmount (second definition, lines 120–194) -/

/-- Alternatives of the first word-stripping regex
`/\b(ألف|الف|الاف|ألاف|مليون|الملايين|thousand|million|k|m)\b/gi`. -/
def wordAlts1 : List (List Char) :=
  [("ألف".data), ("الف".data), ("الاف".data), ("ألاف".data), ("مليون".data),
   ("الملايين".data), ("thousand".data), ("million".data), ("k".data), ("m".data)]

/-- Alternatives of the second word-stripping regex
`/\b(جنيه|دولار|يورو|ريال|درهم|pound|dollar|euro|egp|usd|eur|cve)\b/gi`. -/
def wordAlts2 : List (List Char) :=
  [("جنيه".data), ("دولار".data), ("يورو".data), ("ريال".data), ("درهم".data),
   ("pound".data), ("dollar".data), ("euro".data), ("egp".data), ("usd".data),
   ("eur".data), ("cve".data)]

/-- Is there a `\b`-boundary between two adjacent characters (`none` stands
for the edge of the string)?  JS: exactly one side is a word character. -/
def wordB (a b : Option Char) : Bool :=
  (a.elim false isJsWord) != (b.elim false isJsWord)

/-- Leftmost-alternative match of `/\b(alt1|alt2|…)\b/i` at the current
position: `prev` is the character before the position (for the left
boundary).  Returns the length of the matched alternative.  Alternatives
are tried in the order listed, as a JS alternation does. -/
def altMatchAt (alts : List (List Char)) (prev : Option Char) (cs : List Char) : Option Nat :=
  alts.findSome? fun alt =>
    if alt.isEmpty then none
    else if ciLeads alt cs then
      let n := alt.length
      if wordB prev cs.head? && wordB (cs.get? (n - 1)) (cs.get? n) then some n else none
    else none

theorem ciLeads_length {a cs : List Char} (h : ciLeads a cs = true) :
    a.length ≤ cs.length := by
  induction a generalizing cs with
  | nil => simp
  | cons x xs ih =>
    cases cs with
    | nil => simp [ciLeads] at h
    | cons y ys =>
      simp only [ciLeads, Bool.and_eq_true] at h
      have := ih h.2
      simp only [List.length_cons]
      omega

theorem altMatchAt_pos {alts : List (List Char)} {prev : Option Char} {cs : List Char}
    {n : Nat} (h : altMatchAt alts prev cs = some n) : 1 ≤ n ∧ n ≤ cs.length := by
  unfold altMatchAt at h
  rw [List.findSome?_eq_some_iff] at h
  obtain ⟨l₁, alt, l₂, _, ha, _⟩ := h
  by_cases he : alt.isEmpty
  · simp [he] at ha
  · simp only [he, Bool.false_eq_true, if_false] at ha
    by_cases hp : ciLeads alt cs
    · simp only [hp, if_true] at ha
      split at ha
      · obtain rfl : alt.length = n := by simpa using ha
        refine ⟨?_, ciLeads_length hp⟩
        cases alt with
        | nil => simp at he
        | cons _ _ => simp
      · simp at ha
    · simp [hp] at ha

/-- One global pass of `text.replace(/\b(…)\b/gi, ' ')`: scan left to
right; each match is replaced by a single space and the scan resumes after
the match (boundaries are evaluated on the original characters). -/
def replaceWordsAux (alts : List (List Char)) : Nat → Option Char → List Char → List Char
  | 0, _, cs => cs
  | _ + 1, _, [] => []
  | fuel + 1, prev, c :: rest =>
    match altMatchAt alts prev (c :: rest) with
    | some n => ' ' :: replaceWordsAux alts fuel ((c :: rest).get? (n - 1)) ((c :: rest).drop n)
    | none => c :: replaceWordsAux alts fuel (some c) rest

def replaceWords (alts : List (List Char)) (prev : Option Char) (cs : List Char) : List Char :=
  replaceWordsAux alts cs.length prev cs

/-- `text.replace(/[€$£¥₹]/g, ' ')`. -/
def replaceCurrencySym (cs : List Char) : List Char :=
  cs.map fun c => if c = '€' || c = '$' || c = '£' || c = '¥' || c = '₹' then ' ' else c

/-- `text.replace(/[^\d\s.,|\-]/g, ' ')`: keep digits, whitespace and the
structural hint characters, blank out everything else. -/
def stripChar (c : Char) : Char :=
  if isDigitC c || isJsWS c || c = '.' || c = ',' || c = '|' || c = '-' then c else ' '

/-- Length of the leading JS-whitespace run. -/
def wsRun (cs : List Char) : Nat := (cs.takeWhile isJsWS).length

theorem wsRun_le (cs : List Char) : wsRun cs ≤ cs.length := by
  have h := congrArg List.length (List.takeWhile_append_dropWhile (p := isJsWS) (l := cs))
  rw [List.length_append] at h
  unfold wsRun
  omega

theorem dropWhile_len_le (p : Char → Bool) (cs : List Char) :
    (cs.dropWhile p).length ≤ cs.length := by
  have h := congrArg List.length (List.takeWhile_append_dropWhile (p := p) (l := cs))
  rw [List.length_append] at h
  omega

/-- Length of the separator of `/\s*[\|]\s*|\s{3,}|\s-\s/` matching at the
head of `cs`, if any.  The alternatives are tried in the order of the
source regex; `\s*` and `\s{3,}` are greedy, and since no alternative
continues with a character that could also be whitespace, the greedy match
without backtracking coincides with full regex semantics. -/
def sepLenAt (cs : List Char) : Option Nat :=
  if (cs.drop (wsRun cs)).head? = some '|' then
    some (wsRun cs + 1 + wsRun (cs.drop (wsRun cs)).tail)
  else if 3 ≤ wsRun cs then some (wsRun cs)
  else if (cs.head?.elim false isJsWS) && (cs.get? 1 = some '-') &&
      ((cs.get? 2).elim false isJsWS) then some 3
  else none

theorem sepLenAt_spec {cs : List Char} {n : Nat} (h : sepLenAt cs = some n) :
    1 ≤ n ∧ n ≤ cs.length := by
  have hk := wsRun_le cs
  unfold sepLenAt at h
  split_ifs at h with h1 h2 h3
  · obtain rfl : wsRun cs + 1 + wsRun (cs.drop (wsRun cs)).tail = n := by simpa using h
    have hne : cs.drop (wsRun cs) ≠ [] := by
      intro he
      rw [he] at h1
      simp at h1
    have hlt : wsRun cs < cs.length := by
      by_contra hge
      push_neg at hge
      exact hne (List.drop_eq_nil_of_le hge)
    have ht := wsRun_le (cs.drop (wsRun cs)).tail
    rw [List.length_tail, List.length_drop] at ht
    omega
  · obtain rfl : wsRun cs = n := by simpa using h
    omega
  · obtain rfl : 3 = n := by simpa using h
    simp only [Bool.and_eq_true] at h3
    obtain ⟨-, h3c⟩ := h3
    rcases hg : cs.get? 2 with _ | c
    · rw [hg] at h3c
      simp [Option.elim] at h3c
    · obtain ⟨hlt, -⟩ := List.get?_eq_some.mp hg
      omega

/-- Position and length of the leftmost separator match, the search step of
`cleaned.split(/\s*[\|]\s*|\s{3,}|\s-\s/)`. -/
def findSep : List Char → Option (Nat × Nat)
  | [] => none
  | c :: cs =>
    match sepLenAt (c :: cs) with
    | some n => some (0, n)
    | none => (findSep cs).map fun p => (p.1 + 1, p.2)

theorem findSep_nil : findSep [] = none := rfl

theorem findSep_cons (c : Char) (cs : List Char) :
    findSep (c :: cs) = (match sepLenAt (c :: cs) with
      | some n => some (0, n)
      | none => (findSep cs).map fun p => (p.1 + 1, p.2)) := rfl

theorem findSep_spec {cs : List Char} {i n : Nat} (h : findSep cs = some (i, n)) :
    1 ≤ n ∧ i + n ≤ cs.length := by
  induction cs generalizing i n with
  | nil =>
    rw [findSep_nil] at h
    exact absurd h (by simp)
  | cons c t ih =>
    rw [findSep_cons] at h
    rcases hs : sepLenAt (c :: t) with _ | m
    · rw [hs] at h
      simp only at h
      rcases hf : findSep t with _ | ⟨j, k⟩
      · rw [hf] at h
        exact absurd h (by simp)
      · rw [hf] at h
        simp only [Option.map_some'] at h
        obtain ⟨rfl, rfl⟩ : j + 1 = i ∧ k = n := by simpa using h
        have := ih hf
        simp only [List.length_cons]
        omega
    · rw [hs] at h
      simp only at h
      obtain ⟨rfl, rfl⟩ : (0 : Nat) = i ∧ m = n := by simpa using h
      have := sepLenAt_spec hs
      omega

/-- `cleaned.split(/\s*[\|]\s*|\s{3,}|\s-\s/)`: JS split keeps empty parts,
including a trailing empty part after a final separator. -/
def splitPartsAux : Nat → List Char → List (List Char)
  | 0, cs => [cs]
  | fuel + 1, cs =>
    match findSep cs with
    | none => [cs]
    | some (i, n) => cs.take i :: splitPartsAux fuel (cs.drop (i + n))

/-- Every separator has positive length (`findSep_spec`), so `|cs|` fuel
always suffices. -/
def splitParts (cs : List Char) : List (List Char) :=
  splitPartsAux cs.length cs

/-- `part.replace(/\s+/g, ' ')`: collapse every whitespace run to one space. -/
def collapseWSAux (prevWS : Bool) : List Char → List Char
  | [] => []
  | c :: cs =>
    if isJsWS c then
      if prevWS then collapseWSAux true cs else ' ' :: collapseWSAux true cs
    else c :: collapseWSAux false cs

/-- `part.replace(/\s+/g, ' ')` emits one space per maximal whitespace run:
the flag records whether the previous character belonged to a run whose
space has already been emitted. -/
def collapseWS (cs : List Char) : List Char := collapseWSAux false cs

/-- JS `String.prototype.trim` (trims the `\s` set on both sides). -/
def trimList (cs : List Char) : List Char :=
  ((cs.dropWhile isJsWS).reverse.dropWhile isJsWS).reverse

/-- Numeric value of an ASCII digit run (`parseFloat` on an integer token). -/
def digitsVal (ds : List Char) : Nat := ds.foldl (fun a c => 10 * a + (c.toNat - 48)) 0

/-- All matches of the global regex `/\d+(?:[.,]\d+)?/g`: maximal digit
runs, each optionally extended by one `.` or `,` followed by a further
maximal digit run; the scan resumes after each match. -/
def numMatchesAux : Nat → List Char → List (List Char)
  | 0, _ => []
  | _ + 1, [] => []
  | fuel + 1, c :: cs =>
    if isDigitC c then
      match (c :: cs).dropWhile isDigitC with
      | s :: r2 =>
        if (s = '.' || s = ',') && (r2.head?.elim false isDigitC) then
          ((c :: cs).takeWhile isDigitC ++ s :: r2.takeWhile isDigitC) ::
            numMatchesAux fuel (r2.dropWhile isDigitC)
        else ((c :: cs).takeWhile isDigitC) :: numMatchesAux fuel (s :: r2)
      | [] => [(c :: cs).takeWhile isDigitC]
    else numMatchesAux fuel cs

/-- All matches of the global regex `/\d+(?:[.,]\d+)?/g`: maximal digit
runs, each optionally extended by one `.` or `,` followed by a further
maximal digit run; the scan resumes after each match.  Each step consumes
at least one character, so `|cs|` fuel always suffices. -/
def numMatches (cs : List Char) : List (List Char) :=
  numMatchesAux cs.length cs

/-- Value of one matched token, i.e. `parseFloat(m.replace(',', '.'))` for
a token of shape `\d+(?:[.,]\d+)?`. -/
def ratOfTok (m : List Char) : ℚ :=
  let ip := m.takeWhile isDigitC
  let fp := (m.dropWhile isDigitC).tail.takeWhile isDigitC
  (digitsVal ip : ℚ) + (digitsVal fp : ℚ) / (10 : ℚ) ^ fp.length

/-- The anchored test `/^\d{1,3}\s\d{3}$/.test(partCleaned)`: one to three
digits, a single whitespace character, then exactly three digits. -/
def thousandsShape (cs : List Char) : Bool :=
  match cs.dropWhile isDigitC with
  | s :: r2 =>
    decide (1 ≤ (cs.takeWhile isDigitC).length) &&
    decide ((cs.takeWhile isDigitC).length ≤ 3) &&
    isJsWS s && decide (r2.length = 3) && r2.all isDigitC
  | [] => false

/-- Numbers contributed by one structural segment of the split line
(`parts.forEach` body of `parseAmount`): normalise internal whitespace and
trim; if the segment has the `\d{1,3}\s\d{3}` thousands shape, delete its
whitespace (merging the two groups); extract every `\d+(?:[.,]\d+)?`
token; keep the positive values.  (In the source the non-thousands branch
extracts the tokens via `individualNumbers` and returns early, and the
thousands branch falls through to an identical extraction on the merged
text — both reduce to extraction on the chosen text.) -/
def partNumbers (part : List Char) : List ℚ :=
  let pc := trimList (collapseWS part)
  let src := if thousandsShape pc then pc.filter (fun c => !isJsWS c) else pc
  ((numMatches src).map ratOfTok).filter (fun v => decide (0 < v))

/-- The token values collected in `allNumbers` by `parseAmount`
(`numberParser.ts`, second definition, lines 120–194): normalise digits,
blank out magnitude/currency words (two `\b`-bounded global replaces) and
currency symbols, strip the remaining non-structural characters, split on
table separators, and extract each segment's positive numbers. -/
def parseTokens (text : List Char) : List ℚ :=
  let normalized := normalizeDigits text
  let cleanText :=
    replaceCurrencySym (replaceWords wordAlts2 none (replaceWords wordAlts1 none normalized))
  let cleaned := cleanText.map stripChar
  ((splitParts cleaned).map partNumbers).flatten

/-- `parseAmount`: `null` when no positive number was extracted, otherwise
the maximum of `allNumbers` (`Math.max(...allNumbers)`). -/
def parseAmount (text : List Char) : Option ℚ :=
  match parseTokens text with
  | [] => none
  | v :: vs => some (vs.foldl max v)

/-- The ordered `currencyPatterns` table of `detectCurrency`: each rule is
the alternative list of its regex (tested case-insensitively) paired with
the returned code. -/
def currencyRules : List (List (List Char) × String) :=
  [([("€".data), ("EUR".data), ("euro".data)], "EUR"),
   ([("$".data), ("USD".data), ("dollar".data)], "USD"),
   ([("£".data), ("GBP".data), ("pound".data)], "GBP"),
   ([("EGP".data), ("جنيه".data)], "EGP"),
   ([("CVE".data), ("escudo".data)], "CVE")]

/-- `detectCurrency`: first matching rule wins; `'EUR'` when none matches. -/
def detectCurrency (cs : List Char) : String :=
  match currencyRules.findSome?
      (fun r => if r.1.any (fun alt => ciOccursIn cs alt) then some r.2 else none) with
  | some code => code
  | none => "EUR"

/-! ## amountExtraction.ts — keyword tables and normalisation -/

/-- `TOTAL_KEYWORDS` (multilingual total markers, duplicates as listed). -/
def TOTAL_KEYWORDS : List (List Char) :=
  [("الإجمالي".data), ("الاجمالي".data), ("اجمالي".data), ("إجمالي".data),
   ("الإجمالى".data), ("الاجمالى".data),
   ("المجموع".data), ("مجموع".data), ("الكلي".data), ("كلي".data), ("الكلى".data),
   ("المبلغ الإجمالي".data), ("المبلغ الكلي".data), ("المبلغ".data),
   ("الجملة".data), ("جملة".data), ("الإجمالى".data), ("اﻹجمالي".data), ("اﻻجمالي".data),
   ("total".data), ("total due".data), ("grand total".data), ("amount due".data),
   ("balance due".data),
   ("sum".data), ("subtotal".data), ("net total".data), ("final total".data),
   ("gesamt".data), ("summe".data), ("endsumme".data), ("gesamtsumme".data),
   ("gesamtbetrag".data),
   ("total".data), ("soma".data), ("montante".data), ("valor total".data), ("saldo".data),
   ("total".data), ("montant".data), ("somme".data), ("total général".data)]

/-- `HEADER_KEYWORDS` (table-header markers). -/
def HEADER_KEYWORDS : List (List Char) :=
  [("السعرالإجمالي".data), ("السعر الإجمالي".data),
   ("نوع الصنف".data), ("الحجم".data), ("العدد".data), ("السعر".data),
   ("الإجمالي |".data), ("| الإجمالي".data)]

/-- `IGNORE_KEYWORDS` (tax/registration/contact noise). -/
def IGNORE_KEYWORDS : List (List Char) :=
  [("vat".data), ("tax".data), ("مضافة".data), ("ضريبة".data), ("steuer".data),
   ("imposto".data),
   ("service".data), ("خدمة".data), ("bedienung".data),
   ("registration".data), ("رقم التسجيل".data), ("التسجيل".data), ("تسجيل".data),
   ("ضريبي".data),
   ("id:".data), ("رقم:".data), ("number:".data), ("no:".data), ("invoice no".data),
   ("رقم الفاتورة".data),
   ("phone".data), ("tel".data), ("email".data), ("هاتف".data), ("تليفون".data),
   ("بريد".data),
   ("تاريخ".data), ("date".data), ("datum".data)]

/-- Characters removed by `removeArabicDiacritics`: bidirectional marks,
Arabic signs U+0610–U+061A, diacritics U+064B–U+065F, superscript alef
U+0670, small high marks U+06D6–U+06ED, and tatweel U+0640. -/
def isArabicStripped (c : Char) : Bool :=
  c.toNat = 0x200e || c.toNat = 0x200f || (0x202a ≤ c.toNat && c.toNat ≤ 0x202e) ||
  (0x0610 ≤ c.toNat && c.toNat ≤ 0x061a) || (0x064b ≤ c.toNat && c.toNat ≤ 0x065f) ||
  c.toNat = 0x0670 || (0x06d6 ≤ c.toNat && c.toNat ≤ 0x06ed) || c.toNat = 0x0640

/-- `removeArabicDiacritics` (a chain of character-class deletions). -/
def removeArabicDiacritics (cs : List Char) : List Char :=
  cs.filter fun c => !isArabicStripped c

/-- `ocrText.split('\n')` — split at every separator occurrence, keeping
empty pieces (JS string-argument split). -/
def splitOnChar (sep : Char) : List Char → List (List Char)
  | [] => [[]]
  | c :: cs =>
    if c = sep then [] :: splitOnChar sep cs
    else
      match splitOnChar sep cs with
      | p :: ps => (c :: p) :: ps
      | [] => [[c]]

/-- `ocrText.split('\n').filter(line => line.trim().length > 0)`. -/
def splitLines (cs : List Char) : List (List Char) :=
  (splitOnChar '\n' cs).filter fun l => !(trimList l).isEmpty

/-- Per-line normalisation of `extractAmount`:
`removeArabicDiacritics(normalizeDigits(line.toLowerCase()))`. -/
def normalizeLine (l : List Char) : List Char :=
  removeArabicDiacritics (normalizeDigits (l.map jsLower))

/-- `containsTotalKeywordNormalized`. -/
def containsTotalKeyword (nl : List Char) : Bool :=
  TOTAL_KEYWORDS.any fun kw => occursIn nl kw

/-- The `isTableHeader` test of the per-line scan
(`HEADER_KEYWORDS.some(kw => normalizedLine.includes(kw))`). -/
def isTableHeader (nl : List Char) : Bool :=
  HEADER_KEYWORDS.any fun kw => occursIn nl kw

/-- The `hasIgnoreKeyword` test of the per-line scan. -/
def hasIgnoreKeyword (nl : List Char) : Bool :=
  IGNORE_KEYWORDS.any fun kw => occursIn nl kw

/-- `/ألف|الف/.test(line)` — the raw (unnormalised) line. -/
def hasAlefIndicator (line : List Char) : Bool :=
  occursIn line ("ألف".data) || occursIn line ("الف".data)

/-- Indices of lines whose normalisation carries a total keyword (the
pre-pass trigger list `totalHeaderIndices`; the source builds it by
mapping to `i`/`-1` and filtering `≥ 0`, which keeps exactly these
indices in order). -/
def totalHeaderIndices (nls : List (List Char)) : List Nat :=
  (List.range nls.length).filter fun i => containsTotalKeyword (nls.getD i [])

/-- `hasTotalKeywordNearby(index, normalizedLines, 2)`: some other line at
distance ≤ 2 carries a total keyword. -/
def hasTotalKeywordNearby (i : Nat) (nls : List (List Char)) : Bool :=
  let start := i - 2
  let stop := min (nls.length - 1) (i + 2)
  (List.range (stop + 1 - start)).any fun k =>
    (start + k != i) && containsTotalKeyword (nls.getD (start + k) [])

/-! ## amountExtraction.ts — the pre-pass regex patterns -/

/-- Items of the fixed regex shapes used by the pre-pass: literal runs,
lazy `.*?`, greedy `\s*`, the capturing `(\d+)`, and a trailing optional
literal.  In the three source patterns every `\s*` is followed by `\|`,
`\d` or `أ` and every `(\d+)` by `\s*` — none of which can consume
whitespace respectively digits — so the greedy pieces never need to give
characters back, and maximal munch below is exactly the JS backtracking
semantics.  The optional literal only occurs at the very end of a
pattern, where taking it when present is likewise equivalent. -/
inductive RItem where
  | lit : List Char → RItem
  | anyLazy : RItem
  | wsGreedy : RItem
  | digitsCap : RItem
  | optLit : Char → RItem

/-- The ECMAScript line terminators (LF, CR, U+2028, U+2029): without the
`s` flag, `.` matches every character except these.  Only `\n` is consumed
by the line split, so `\r` and U+2028/U+2029 can still occur inside a
line. -/
def isLineTerm (c : Char) : Bool :=
  c.toNat = 10 || c.toNat = 13 || c.toNat = 0x2028 || c.toNat = 0x2029

/-- Backtracking matcher for a sequence of items against a prefix of `cs`
(the patterns are unanchored on the right).  `anyLazy` prefers the
shortest expansion, as `.*?` does, and — like `.` without the `s` flag —
cannot consume a line terminator.  Returns the text captured by the
(single) `digitsCap` item. -/
def matchItemsAux : Nat → List RItem → List Char → Option (List Char)
  | 0, _, _ => none
  | _ + 1, [], _ => some []
  | fuel + 1, RItem.lit l :: its, cs =>
    if l.isPrefixOf cs then matchItemsAux fuel its (cs.drop l.length) else none
  | fuel + 1, RItem.anyLazy :: its, [] => matchItemsAux fuel its []
  | fuel + 1, RItem.anyLazy :: its, c :: cs2 =>
    match matchItemsAux fuel its (c :: cs2) with
    | some r => some r
    | none => if isLineTerm c then none else matchItemsAux fuel (RItem.anyLazy :: its) cs2
  | fuel + 1, RItem.wsGreedy :: its, cs => matchItemsAux fuel its (cs.dropWhile isJsWS)
  | fuel + 1, RItem.digitsCap :: its, cs =>
    (if (cs.takeWhile isDigitC).isEmpty then none
     else (matchItemsAux fuel its (cs.drop (cs.takeWhile isDigitC).length)).map
       fun _ => cs.takeWhile isDigitC)
  | fuel + 1, RItem.optLit _ :: its, [] => matchItemsAux fuel its []
  | fuel + 1, RItem.optLit c :: its, c2 :: cs2 =>
    if c2 = c then matchItemsAux fuel its cs2 else matchItemsAux fuel its (c2 :: cs2)

/-- Every step of the matcher either consumes an item or a character, so
`2·|cs| + |items| + 1` fuel always suffices. -/
def matchItems (its : List RItem) (cs : List Char) : Option (List Char) :=
  matchItemsAux (2 * cs.length + its.length + 1) its cs

/-- Leftmost-match search: an unanchored JS regex is matched by trying
start positions from the left.  Unlike a pattern-internal `.*?`, this
scan is not blocked by line terminators — the engine attempts a match at
every position of the subject string. -/
def regexCapture (items : List RItem) : List Char → Option (List Char)
  | [] => matchItems items []
  | c :: cs =>
    match matchItems items (c :: cs) with
    | some r => some r
    | none => regexCapture items cs

/-- Pattern 1, `/الإجمالي.*?\|\s*.*?\|\s*.*?\|\s*.*?\|\s*(\d+)\s*ألف?/i`. -/
def tableRowItems : List RItem :=
  [RItem.lit ("الإجمالي".data), RItem.anyLazy, RItem.lit ("|".data), RItem.wsGreedy,
   RItem.anyLazy, RItem.lit ("|".data), RItem.wsGreedy,
   RItem.anyLazy, RItem.lit ("|".data), RItem.wsGreedy,
   RItem.anyLazy, RItem.lit ("|".data), RItem.wsGreedy,
   RItem.digitsCap, RItem.wsGreedy, RItem.lit ("أل".data), RItem.optLit 'ف']

/-- Pattern 2, `/الإجمالي.*?(\d+)\s*ألف/i`. -/
def simpleItems : List RItem :=
  [RItem.lit ("الإجمالي".data), RItem.anyLazy, RItem.digitsCap, RItem.wsGreedy,
   RItem.lit ("ألف".data)]

/-- Pattern 3, `/(\d+)\s*ألف/i`. -/
def alefItems : List RItem :=
  [RItem.digitsCap, RItem.wsGreedy, RItem.lit ("ألف".data)]

/-- `columns[i].match(/(\d+)/)`: the leftmost maximal digit run. -/
def firstDigitRun : List Char → Option (List Char)
  | [] => none
  | c :: cs =>
    if isDigitC c then some ((c :: cs).takeWhile isDigitC) else firstDigitRun cs

/-- Pattern 4 of the pre-pass: if the total line contains a pipe, split it
on `'|'`, trim each column, and return the first column from the right
whose first number exceeds 1000, at confidence 0.96. -/
def prePass4 (totalLine : List Char) : Option (ℚ × ℚ) :=
  if totalLine.contains '|' then
    ((splitOnChar '|' totalLine).map trimList).reverse.findSome? fun col =>
      match firstDigitRun col with
      | some ds => if 1000 < digitsVal ds then some ((digitsVal ds : ℚ), 0.96) else none
      | none => none
  else none

/-- Pattern 3 of the pre-pass (falling through to pattern 4). -/
def prePass3 (totalLine : List Char) : Option (ℚ × ℚ) :=
  match regexCapture alefItems totalLine with
  | some ds =>
    if 0 < digitsVal ds then some ((digitsVal ds : ℚ), 0.97) else prePass4 totalLine
  | none => prePass4 totalLine

/-- Pattern 2 of the pre-pass (falling through to pattern 3). -/
def prePass2 (totalLine : List Char) : Option (ℚ × ℚ) :=
  match regexCapture simpleItems totalLine with
  | some ds =>
    if 0 < digitsVal ds then some ((digitsVal ds : ℚ), 0.98) else prePass3 totalLine
  | none => prePass3 totalLine

/-- The pre-pass of `extractAmount` on the last total-keyword line: the
four patterns in order, each returning `(amount, confidence)` on success
(`0.99`, `0.98`, `0.97`, `0.96`). -/
def prePass (totalLine : List Char) : Option (ℚ × ℚ) :=
  match regexCapture tableRowItems totalLine with
  | some ds =>
    if 0 < digitsVal ds then some ((digitsVal ds : ℚ), 0.99) else prePass2 totalLine
  | none => prePass2 totalLine

/-! ## amountExtraction.ts — per-line candidate scan and result assembly -/

/-- `calculateConfidence` (base 0.3, keyword +0.5, last lines +0.1,
magnitude +0.1/+0.05, context quality ×0.1, clamped at 1). -/
def calculateConfidence (hasKeyword isLast : Bool) (amountSize contextQuality : ℚ) : ℚ :=
  min ((0.3 : ℚ) + (if hasKeyword then (0.5 : ℚ) else 0) + (if isLast then (0.1 : ℚ) else 0) +
    (if 1000 < amountSize then (0.1 : ℚ) else if 100 < amountSize then (0.05 : ℚ) else 0) +
    contextQuality * (0.1 : ℚ)) 1

/-- Row-aware extraction of the per-line scan: when
`normalizeDigits(line)` holds at least two `\d+(?:[.,]\d+)?` matches, the
rightmost one with value in `[1000, 1000000]`. -/
def rightmostLarge (line : List Char) : Option ℚ :=
  if 2 ≤ (numMatches (normalizeDigits line)).length then
    (numMatches (normalizeDigits line)).reverse.findSome? fun m =>
      if 1000 ≤ ratOfTok m ∧ ratOfTok m ≤ 1000000 then some (ratOfTok m) else none
  else none

/-- The amount attributed to a line: the rightmost large token if the
row-aware branch fires, else `parseAmount(line)`. -/
def lineAmount (line : List Char) : Option ℚ :=
  match rightmostLarge line with
  | some a => some a
  | none => parseAmount line

/-- The mutable `bestCandidate` record of `extractAmount`. -/
structure Candidate where
  amount : ℚ
  currency : String
  confidence : ℚ
  lineIndex : Nat
  line : List Char
  hasTotalContext : Bool
  deriving Repr, DecidableEq

/-- The amount a line contributes to the scan, after the source's guards:
`null` and `0` amounts are dropped, and amounts over 1,000,000 are
rejected as likely phone/registration numbers. -/
def admissibleAmount (line : List Char) : Option ℚ :=
  match lineAmount line with
  | none => none
  | some a => if a = 0 then none else if 1000000 < a then none else some a

/-- The candidate built for line `i` with admissible amount `a`: currency,
confidence (from the thousands indicator, nearby non-header total context,
last-5-lines position and context quality) and the stored
`hasTotalContext` flag, exactly as the source fills the record. -/
def mkCandidate (lines nls : List (List Char)) (i : Nat) (line : List Char) (a : ℚ) :
    Candidate :=
  let nl := nls.getD i []
  let hasAlef := hasAlefIndicator line
  let isHeader := isTableHeader nl
  let hasTotalNearbyContext :=
    (containsTotalKeyword nl && !isHeader) || hasTotalKeywordNearby i nls
  let contextQuality : ℚ :=
    if hasAlef then 1.5
    else if hasTotalNearbyContext && !isHeader then 1.0
    else if isHeader then 0.1
    else 0.2
  { amount := a
    currency := detectCurrency line
    confidence :=
      calculateConfidence (hasAlef || (hasTotalNearbyContext && !isHeader))
        (decide (lines.length - 5 ≤ i)) a contextQuality
    lineIndex := i
    line := line
    hasTotalContext := hasAlef || (hasTotalNearbyContext && !isHeader) }

/-- The source's candidate-replacement rule: a candidate with alef/total
context beats one without; at equal context a clearly higher confidence
(`> best + 1e-6`) wins; within `0.01` confidence the larger amount wins,
ties broken by the later line. -/
def replaceCond (b cand : Candidate) : Bool :=
  let currentCtx := cand.hasTotalContext
  let bestCtx := hasAlefIndicator b.line ||
    (b.hasTotalContext && !(HEADER_KEYWORDS.any fun kw => occursIn (b.line.map jsLower) kw))
  (currentCtx && !bestCtx) ||
  ((currentCtx == bestCtx) && decide (b.confidence + (0.000001 : ℚ) < cand.confidence)) ||
  ((currentCtx == bestCtx) && decide (|cand.confidence - b.confidence| ≤ (0.01 : ℚ)) &&
    (decide (b.amount < cand.amount) ||
      (decide (cand.amount = b.amount) && decide (b.lineIndex < cand.lineIndex))))

/-- Install `cand` as the running best when there is none yet or the
replacement rule fires. -/
def updateBest (best : Option Candidate) (cand : Candidate) : Option Candidate :=
  match best with
  | none => some cand
  | some b => if replaceCond b cand then some cand else some b

/-- One iteration of the `lines.forEach` candidate scan: skip the line on
an ignore keyword (unless total context or a thousands word rescues it),
then feed its admissible amount into the best-candidate update. -/
def processLine (lines nls : List (List Char)) (best : Option Candidate) (i : Nat)
    (line : List Char) : Option Candidate :=
  let nl := nls.getD i []
  let hasTotalNearbyContext :=
    (containsTotalKeyword nl && !isTableHeader nl) || hasTotalKeywordNearby i nls
  if hasIgnoreKeyword nl && !hasTotalNearbyContext && !hasAlefIndicator line then best
  else
    match admissibleAmount line with
    | none => best
    | some a => updateBest best (mkCandidate lines nls i line a)

/-- The candidate left in `bestCandidate` after the `lines.forEach` scan. -/
def bestCand (lines nls : List (List Char)) : Option Candidate :=
  lines.enum.foldl (fun best p => processLine lines nls best p.1 p.2) none

/-- The engine's result record, restricted to the fields the verified
claims speak about (`rawText`, `detectedRows` and `method` only echo the
input and a constant tag). -/
structure ExtractedAmount where
  amount : Option ℚ
  currency : String
  confidence : ℚ
  deriving Repr, DecidableEq

/-- The amounts collected by the Arabic-receipt fallback:
`parseAmount(line)` for every line, kept when in `[1000, 100000]`. -/
def fallbackAmounts (lines : List (List Char)) : List ℚ :=
  lines.filterMap fun l =>
    match parseAmount l with
    | some a => if 1000 ≤ a ∧ a ≤ 100000 then some a else none
    | none => none

/-- `Math.max(...)` on a list (only used on provably nonempty lists). -/
def maxOfList : List ℚ → ℚ
  | [] => 0
  | v :: vs => vs.foldl max v

/-- The pre-pass stage result: the last total-keyword line, if any, run
through the four patterns; the currency is detected on that line. -/
def prePassResult (lines nls : List (List Char)) : Option ExtractedAmount :=
  match (totalHeaderIndices nls).getLast? with
  | none => none
  | some lastIdx =>
    let totalLine := lines.getD lastIdx []
    (prePass totalLine).map fun p => ⟨some p.1, detectCurrency totalLine, p.2⟩

/-- The Arabic-receipt disambiguation applied to the best candidate: when
it lacks total context and the document currency contains `'EG'`, compare
the largest plausible amount with the sum of the others (`0.8` ratio,
`1.5×`/`≤ 100000` sum rule) and possibly override at confidence
0.75/0.70. -/
def arabicStage (cs : List Char) (lines : List (List Char)) (best : Candidate) :
    ExtractedAmount :=
  let docCurrency := detectCurrency cs
  if !best.hasTotalContext && occursIn docCurrency.data ("EG".data) then
    let allAmounts := fallbackAmounts lines
    if 2 ≤ allAmounts.length then
      let sumA := allAmounts.foldl (· + ·) 0
      let maxA := maxOfList allAmounts
      let isLikelyTotal := decide ((sumA - maxA) * (0.8 : ℚ) < maxA)
      if isLikelyTotal && decide (maxA ≠ best.amount) then ⟨some maxA, docCurrency, 0.75⟩
      else if maxA * (1.5 : ℚ) < sumA ∧ sumA ≤ 100000 then ⟨some sumA, docCurrency, 0.70⟩
      else ⟨some best.amount, best.currency, best.confidence⟩
    else ⟨some best.amount, best.currency, best.confidence⟩
  else ⟨some best.amount, best.currency, best.confidence⟩

/-- The last-resort stage: first positive `parseAmount` among the last 5
lines, scanned in reverse, at confidence 0.4; else the null result with
the document currency. -/
def lastLinesStage (cs : List Char) (lines : List (List Char)) : ExtractedAmount :=
  let lastLines := lines.drop (lines.length - 5)
  match lastLines.reverse.findSome? (fun l =>
      match parseAmount l with
      | some a => if 0 < a then some (a, detectCurrency l) else none
      | none => none) with
  | some p => ⟨some p.1, p.2, 0.4⟩
  | none => ⟨none, detectCurrency cs, 0⟩

/-- `extractAmount` on a character list: the empty-input guard, the
pre-pass on the last total-keyword line, the per-line candidate scan, the
Arabic-receipt (EG-currency) sum/max disambiguation, and the last-5-lines
fallback, in the source's order. -/
def extractAmountL (cs : List Char) : ExtractedAmount :=
  if (trimList cs).isEmpty then ⟨none, "EUR", 0⟩
  else
    let lines := splitLines cs
    let nls := lines.map normalizeLine
    match prePassResult lines nls with
    | some r => r
    | none =>
      match bestCand lines nls with
      | some best => arabicStage cs lines best
      | none => lastLinesStage cs lines

/-- `extractAmount(ocrText)` on a Lean string. -/
def extractAmount (s : String) : ExtractedAmount := extractAmountL s.data

/-! ## Shared lemmas about the embedding -/

theorem le_foldl_max (v : ℚ) (vs : List ℚ) : v ≤ vs.foldl max v := by
  induction vs generalizing v with
  | nil => simp
  | cons x xs ih => exact le_trans (le_max_left v x) (ih (max v x))

theorem mem_le_foldl_max {vs : List ℚ} {x : ℚ} (hx : x ∈ vs) (v : ℚ) :
    x ≤ vs.foldl max v := by
  induction vs generalizing v with
  | nil => simp at hx
  | cons y ys ih =>
    rcases List.mem_cons.mp hx with rfl | hmem
    · exact le_trans (le_max_right v x) (le_foldl_max _ _)
    · exact ih hmem _

theorem foldl_max_mem (v : ℚ) (vs : List ℚ) : vs.foldl max v = v ∨ vs.foldl max v ∈ vs := by
  induction vs generalizing v with
  | nil => left; rfl
  | cons x xs ih =>
    rw [List.foldl_cons]
    rcases ih (max v x) with h | h
    · rcases max_choice v x with hm | hm
      · left; rw [h, hm]
      · right; rw [h, hm]; exact List.mem_cons_self _ _
    · right; exact List.mem_cons_of_mem _ h

theorem partNumbers_pos {p : List Char} {v : ℚ} (hv : v ∈ partNumbers p) : 0 < v := by
  unfold partNumbers at hv
  rw [List.mem_filter] at hv
  exact of_decide_eq_true hv.2

theorem parseTokens_pos {t : List Char} {v : ℚ} (hv : v ∈ parseTokens t) : 0 < v := by
  unfold parseTokens at hv
  rw [List.mem_flatten] at hv
  obtain ⟨l, hl, hvl⟩ := hv
  rw [List.mem_map] at hl
  obtain ⟨part, -, rfl⟩ := hl
  exact partNumbers_pos hvl

theorem parseAmount_spec {t : List Char} {a : ℚ} (h : parseAmount t = some a) :
    a ∈ parseTokens t ∧ 0 < a ∧ ∀ x ∈ parseTokens t, x ≤ a := by
  unfold parseAmount at h
  rcases ht : parseTokens t with _ | ⟨v, vs⟩
  · rw [ht] at h; exact absurd h (by simp)
  · rw [ht] at h
    obtain rfl : vs.foldl max v = a := by simpa using h
    have hmem : vs.foldl max v ∈ v :: vs := by
      rcases foldl_max_mem v vs with hm | hm
      · rw [hm]; exact List.mem_cons_self _ _
      · exact List.mem_cons_of_mem _ hm
    refine ⟨hmem, parseTokens_pos (by rw [ht]; exact hmem), ?_⟩
    intro x hx
    rcases List.mem_cons.mp hx with rfl | hmem2
    · exact le_foldl_max _ _
    · exact mem_le_foldl_max hmem2 _

theorem parseAmount_none_iff (t : List Char) : parseAmount t = none ↔ parseTokens t = [] := by
  unfold parseAmount
  rcases ht : parseTokens t with _ | ⟨v, vs⟩ <;> simp

theorem rightmostLarge_bounds {l : List Char} {a : ℚ} (h : rightmostLarge l = some a) :
    1000 ≤ a ∧ a ≤ 1000000 := by
  unfold rightmostLarge at h
  split_ifs at h with hlen
  · rw [List.findSome?_eq_some_iff] at h
    obtain ⟨-, m, -, -, hm, -⟩ := h
    split_ifs at hm with hb
    obtain rfl : ratOfTok m = a := by simpa using hm
    exact hb

theorem lineAmount_pos {l : List Char} {a : ℚ} (h : lineAmount l = some a) : 0 < a := by
  unfold lineAmount at h
  rcases hr : rightmostLarge l with _ | b
  · rw [hr] at h; exact (parseAmount_spec h).2.1
  · rw [hr] at h
    obtain rfl : b = a := by simpa using h
    have := (rightmostLarge_bounds hr).1
    linarith

theorem admissibleAmount_spec {line : List Char} {a : ℚ}
    (h : admissibleAmount line = some a) : 0 < a ∧ a ≤ 1000000 := by
  unfold admissibleAmount at h
  rcases hl : lineAmount line with _ | b
  · rw [hl] at h; exact absurd h (by simp)
  · rw [hl] at h
    simp only [] at h
    split_ifs at h with h1 h2
    obtain rfl : b = a := by simpa using h
    exact ⟨lineAmount_pos hl, by linarith⟩

theorem updateBest_cases (best : Option Candidate) (cand : Candidate) {b : Candidate}
    (h : updateBest best cand = some b) : b = cand ∨ best = some b := by
  unfold updateBest at h
  rcases best with _ | bc
  · left; exact (Option.some.inj h).symm
  · simp only [] at h
    split_ifs at h with hr
    · left; exact (Option.some.inj h).symm
    · right; rw [Option.some.inj h]

theorem processLine_pos {lines nls : List (List Char)} {best : Option Candidate} {i : Nat}
    {line : List Char} {b : Candidate}
    (hb : ∀ x : Candidate, best = some x → 0 < x.amount)
    (h : processLine lines nls best i line = some b) : 0 < b.amount := by
  simp only [processLine] at h
  split_ifs at h with h1
  · exact hb b h
  · rcases ha : admissibleAmount line with _ | a
    · rw [ha] at h
      exact hb b h
    · rw [ha] at h
      rcases updateBest_cases best (mkCandidate lines nls i line a) h with rfl | hkeep
      · show 0 < (mkCandidate lines nls i line a).amount
        have : (mkCandidate lines nls i line a).amount = a := rfl
        rw [this]
        exact (admissibleAmount_spec ha).1
      · exact hb b hkeep

theorem bestCand_pos {lines nls : List (List Char)} {b : Candidate}
    (h : bestCand lines nls = some b) : 0 < b.amount := by
  unfold bestCand at h
  have H : ∀ (ps : List (Nat × List Char)) (init : Option Candidate),
      (∀ x : Candidate, init = some x → 0 < x.amount) →
      ∀ c : Candidate,
        ps.foldl (fun best p => processLine lines nls best p.1 p.2) init = some c →
        0 < c.amount := by
    intro ps
    induction ps with
    | nil => intro init hi c hc; exact hi c hc
    | cons p ps ih =>
      intro init hi c hc
      rw [List.foldl_cons] at hc
      exact ih _ (fun x hx => processLine_pos hi hx) c hc
  exact H _ none (by intro x hx; cases hx) b h

theorem prePass4_spec {l : List Char} {p : ℚ × ℚ} (h : prePass4 l = some p) :
    1000 < p.1 ∧ p.2 = (0.96 : ℚ) := by
  unfold prePass4 at h
  split_ifs at h with hp
  rw [List.findSome?_eq_some_iff] at h
  obtain ⟨-, col, -, -, hcol, -⟩ := h
  rcases hd : firstDigitRun col with _ | ds
  · rw [hd] at hcol; exact absurd hcol (by simp)
  · rw [hd] at hcol
    simp only [] at hcol
    split_ifs at hcol with hb
    obtain rfl : ((digitsVal ds : ℚ), (0.96 : ℚ)) = p := by simpa using hcol
    exact ⟨by show (1000 : ℚ) < (digitsVal ds : ℚ); exact_mod_cast hb, rfl⟩

theorem prePass3_spec {l : List Char} {p : ℚ × ℚ} (h : prePass3 l = some p) :
    0 < p.1 ∧ (p.2 = (0.97 : ℚ) ∨ p.2 = (0.96 : ℚ)) := by
  unfold prePass3 at h
  rcases hc : regexCapture alefItems l with _ | ds
  · rw [hc] at h
    simp only [] at h
    have := prePass4_spec h
    exact ⟨by linarith [this.1], Or.inr this.2⟩
  · rw [hc] at h
    simp only [] at h
    split_ifs at h with h1
    · obtain rfl : ((digitsVal ds : ℚ), (0.97 : ℚ)) = p := by simpa using h
      exact ⟨by show (0 : ℚ) < (digitsVal ds : ℚ); exact_mod_cast h1, Or.inl rfl⟩
    · have := prePass4_spec h
      exact ⟨by linarith [this.1], Or.inr this.2⟩

theorem prePass2_spec {l : List Char} {p : ℚ × ℚ} (h : prePass2 l = some p) :
    0 < p.1 ∧ (p.2 = (0.98 : ℚ) ∨ p.2 = (0.97 : ℚ) ∨ p.2 = (0.96 : ℚ)) := by
  unfold prePass2 at h
  rcases hc : regexCapture simpleItems l with _ | ds
  · rw [hc] at h
    simp only [] at h
    have := prePass3_spec h
    exact ⟨this.1, Or.inr this.2⟩
  · rw [hc] at h
    simp only [] at h
    split_ifs at h with h1
    · obtain rfl : ((digitsVal ds : ℚ), (0.98 : ℚ)) = p := by simpa using h
      exact ⟨by show (0 : ℚ) < (digitsVal ds : ℚ); exact_mod_cast h1, Or.inl rfl⟩
    · have := prePass3_spec h
      exact ⟨this.1, Or.inr this.2⟩

theorem prePass_spec {l : List Char} {p : ℚ × ℚ} (h : prePass l = some p) :
    0 < p.1 ∧ (p.2 = (0.99 : ℚ) ∨ p.2 = (0.98 : ℚ) ∨ p.2 = (0.97 : ℚ) ∨ p.2 = (0.96 : ℚ)) := by
  unfold prePass at h
  rcases hc : regexCapture tableRowItems l with _ | ds
  · rw [hc] at h
    simp only [] at h
    have := prePass2_spec h
    exact ⟨this.1, Or.inr this.2⟩
  · rw [hc] at h
    simp only [] at h
    split_ifs at h with h1
    · obtain rfl : ((digitsVal ds : ℚ), (0.99 : ℚ)) = p := by simpa using h
      exact ⟨by show (0 : ℚ) < (digitsVal ds : ℚ); exact_mod_cast h1, Or.inl rfl⟩
    · have := prePass2_spec h
      exact ⟨this.1, Or.inr this.2⟩

theorem fallbackAmounts_bounds {lines : List (List Char)} {x : ℚ}
    (hx : x ∈ fallbackAmounts lines) : 1000 ≤ x ∧ x ≤ 100000 := by
  unfold fallbackAmounts at hx
  rw [List.mem_filterMap] at hx
  obtain ⟨l, -, hl⟩ := hx
  rcases hp : parseAmount l with _ | a
  · rw [hp] at hl; exact absurd hl (by simp)
  · rw [hp] at hl
    simp only [] at hl
    split_ifs at hl with hb
    obtain rfl : a = x := by simpa using hl
    exact hb

theorem maxOfList_mem {l : List ℚ} (h : l ≠ []) : maxOfList l ∈ l := by
  rcases l with _ | ⟨v, vs⟩
  · exact absurd rfl h
  · unfold maxOfList
    simp only []
    rcases foldl_max_mem v vs with hm | hm
    · rw [hm]; exact List.mem_cons_self _ _
    · exact List.mem_cons_of_mem _ hm

theorem arabicStage_pos {cs : List Char} {lines : List (List Char)} {best : Candidate}
    (hb : 0 < best.amount) {a : ℚ} (h : (arabicStage cs lines best).amount = some a) :
    0 < a := by
  simp only [arabicStage] at h
  split_ifs at h with h1 h2 h3 h4
  · obtain rfl : maxOfList (fallbackAmounts lines) = a := by simpa using h
    have hne : fallbackAmounts lines ≠ [] := by
      intro he
      rw [he] at h2
      simp at h2
    have := (fallbackAmounts_bounds (maxOfList_mem hne)).1
    linarith
  · obtain rfl : (fallbackAmounts lines).foldl (· + ·) 0 = a := by simpa using h
    have hne : fallbackAmounts lines ≠ [] := by
      intro he
      rw [he] at h2
      simp at h2
    have hmem := maxOfList_mem hne
    have hmax := (fallbackAmounts_bounds hmem).1
    have := h4.1
    nlinarith
  · obtain rfl : best.amount = a := by simpa using h
    exact hb
  · obtain rfl : best.amount = a := by simpa using h
    exact hb
  · obtain rfl : best.amount = a := by simpa using h
    exact hb

theorem lastLinesStage_pos {cs : List Char} {lines : List (List Char)} {a : ℚ}
    (h : (lastLinesStage cs lines).amount = some a) : 0 < a := by
  simp only [lastLinesStage] at h
  rcases hf : (lines.drop (lines.length - 5)).reverse.findSome? (fun l =>
      match parseAmount l with
      | some a => if 0 < a then some (a, detectCurrency l) else none
      | none => none) with _ | p
  · rw [hf] at h; exact absurd h (by simp)
  · rw [hf] at h
    obtain rfl : p.1 = a := by simpa using h
    rw [List.findSome?_eq_some_iff] at hf
    obtain ⟨-, l, -, -, hl, -⟩ := hf
    rcases hp : parseAmount l with _ | b
    · rw [hp] at hl; exact absurd hl (by simp)
    · rw [hp] at hl
      simp only [] at hl
      split_ifs at hl with hpos
      obtain rfl : (b, detectCurrency l) = p := by simpa using hl
      exact hpos

theorem prePassResult_spec {lines nls : List (List Char)} {r : ExtractedAmount}
    (h : prePassResult lines nls = some r) :
    ∃ (idx : Nat) (p : ℚ × ℚ), (totalHeaderIndices nls).getLast? = some idx ∧
      prePass (lines.getD idx []) = some p ∧
      r = ⟨some p.1, detectCurrency (lines.getD idx []), p.2⟩ := by
  simp only [prePassResult] at h
  rcases hi : (totalHeaderIndices nls).getLast? with _ | idx
  · rw [hi] at h; exact absurd h (by simp)
  · rw [hi] at h
    simp only [] at h
    rcases hp : prePass (lines.getD idx []) with _ | p
    · rw [hp] at h; exact absurd h (by simp)
    · rw [hp] at h
      refine ⟨idx, p, rfl, hp, ?_⟩
      simpa using h.symm

theorem extractAmountL_pos {cs : List Char} {a : ℚ}
    (h : (extractAmountL cs).amount = some a) : 0 < a := by
  simp only [extractAmountL] at h
  split_ifs at h with htrim
  rcases hp : prePassResult (splitLines cs) ((splitLines cs).map normalizeLine) with _ | r
  · rw [hp] at h
    simp only [] at h
    rcases hb : bestCand (splitLines cs) ((splitLines cs).map normalizeLine) with _ | best
    · rw [hb] at h
      simp only [] at h
      exact lastLinesStage_pos h
    · rw [hb] at h
      simp only [] at h
      exact arabicStage_pos (bestCand_pos hb) h
  · rw [hp] at h
    simp only [] at h
    obtain ⟨idx, p, -, hpp, rfl⟩ := prePassResult_spec hp
    obtain rfl : p.1 = a := by simpa using h
    exact (prePass_spec hpp).1

/-! ## Claim theorems -/

/-- The five-line table scenario of the specification. -/
def c1Input : String :=
  "نوع الصنف | الحجم | العدد | السعر | الإجمالي\nبرتقال | 5 | 40 | 550 | 22000\nجوافة | 5 | 10 | 380 | 3800\nفراولة | 5 | 20 | 380 | 7600\nالإجمالي | | | | 44800 ألف"

unseal Rat.add Rat.mul Rat.sub Rat.inv Rat.ofScientific in
/-- Claim C1: on the five-line table input, extractAmount returns
amount 44800 at confidence 0.99 ≥ 0.95 (so in particular neither the
line-item sum 34800 nor any individual line-item number). -/
theorem C1_end_to_end :
    (extractAmount c1Input).amount = some 44800 ∧
    (0.95 : ℚ) ≤ (extractAmount c1Input).confidence := by
  have h : extractAmount c1Input = ⟨some 44800, "EUR", 0.99⟩ := by decide
  rw [h]
  exact ⟨rfl, by norm_num⟩

unseal Rat.add Rat.mul Rat.sub Rat.inv Rat.ofScientific in
/-- Claim C2, counterexample: the single line "12345678" (an 8-digit
phone-like number) is returned as the amount by the last-lines fallback,
violating the claimed 1,000,000 upper bound on every return path. -/
theorem C2_counterexample :
    (extractAmount "12345678").amount = some 12345678 ∧ (1000000 : ℚ) < 12345678 :=
  ⟨by decide, by norm_num⟩

/-- Claim C2, amended: whenever extractAmount returns a non-null amount it
is strictly positive; the 1,000,000 upper bound holds on the per-line
candidate path but not on the keyword pre-pass or last-lines fallback
paths. -/
theorem C2_amount_positive (s : String) (a : ℚ)
    (h : (extractAmount s).amount = some a) : 0 < a :=
  extractAmountL_pos h

unseal Rat.add Rat.mul Rat.sub Rat.inv Rat.ofScientific in
theorem C2_amount_positive_witness : (0 : ℚ) < 44800 :=
  C2_amount_positive c1Input 44800 (by decide)

/-- Input whose keyword line is followed by candidate numbers within the
claimed 12-line window, the largest being 999. -/
def c3Input : String := "total\n10\n20\n30\n999"

unseal Rat.add Rat.mul Rat.sub Rat.inv Rat.ofScientific in
/-- Claim C3, counterexample: with a total-keyword line followed by the
numbers 10, 20, 30, 999 (all within 12 lines, all ≤ 1,000,000), the
engine returns 20, not the window's largest number 999 — there is no
header-lookahead scan. -/
theorem C3_counterexample :
    (extractAmount c3Input).amount = some 20 ∧
    (extractAmount c3Input).amount ≠ some 999 := by
  have h : extractAmount c3Input = ⟨some 20, "EUR", 1⟩ := by decide
  rw [h]
  exact ⟨rfl, by decide⟩

/-- A line that matches both a header keyword and a total keyword. -/
def c4Input : String := "السعر الإجمالي 44800 ألف"

unseal Rat.add Rat.mul Rat.sub Rat.inv Rat.ofScientific in
/-- Claim C4, counterexample: the line "السعر الإجمالي 44800 ألف" matches
both a total keyword and a header keyword; it is classified as a table
header, yet it is in the pre-pass trigger list `totalHeaderIndices` and
the keyword stage returns from it (at its pattern-2 confidence 0.98) —
it is not excluded from the trigger set. -/
theorem C4_counterexample :
    containsTotalKeyword (normalizeLine c4Input.data) = true ∧
    isTableHeader (normalizeLine c4Input.data) = true ∧
    totalHeaderIndices [normalizeLine c4Input.data] = [0] ∧
    extractAmount c4Input = ⟨some 44800, "EUR", 0.98⟩ :=
  ⟨by decide, by decide, by decide, by decide⟩

/-- Claim C4, amended: a line matching both keyword classes is classified
`isTableHeader = true`, but it is not excluded from the keyword-stage
trigger set: every line whose normalisation carries a total keyword is in
`totalHeaderIndices`, header or not. -/
theorem C4_header_not_excluded (nls : List (List Char)) (i : Nat) (hi : i < nls.length)
    (ht : containsTotalKeyword (nls.getD i []) = true)
    (hh : ∃ kw ∈ HEADER_KEYWORDS, occursIn (nls.getD i []) kw = true) :
    isTableHeader (nls.getD i []) = true ∧ i ∈ totalHeaderIndices nls := by
  constructor
  · unfold isTableHeader
    rw [List.any_eq_true]
    obtain ⟨kw, hkw, hocc⟩ := hh
    exact ⟨kw, hkw, hocc⟩
  · unfold totalHeaderIndices
    rw [List.mem_filter]
    exact ⟨List.mem_range.mpr hi, ht⟩

unseal Rat.add Rat.mul Rat.sub Rat.inv Rat.ofScientific in
theorem C4_header_not_excluded_witness :
    isTableHeader ([normalizeLine c4Input.data].getD 0 []) = true ∧
    0 ∈ totalHeaderIndices [normalizeLine c4Input.data] :=
  C4_header_not_excluded [normalizeLine c4Input.data] 0 (by decide) (by decide)
    ⟨("السعر الإجمالي".data), by decide, by decide⟩

unseal Rat.add Rat.mul Rat.sub Rat.inv Rat.ofScientific in
/-- Claim C6: "50 300" (one space, 3-digit suffix) is merged to the single
number 50300, while "20 380 7600" yields the three separate numbers
20, 380, 7600 (parseAmount then returning their maximum). -/
theorem C6_thousands_merge :
    parseTokens ("50 300".data) = [50300] ∧ parseAmount ("50 300".data) = some 50300 ∧
    parseTokens ("20 380 7600".data) = [20, 380, 7600] ∧
    parseAmount ("20 380 7600".data) = some 7600 :=
  ⟨by decide, by decide, by decide, by decide⟩

unseal Rat.add Rat.mul Rat.sub Rat.inv Rat.ofScientific in
/-- Claim C7, counterexample: the line "5 ألف" (a number below 1000 with
the Arabic thousands word) parses to 5, not 5 × 1000 — the parser never
applies the claimed ×1000 multiplier. -/
theorem C7_counterexample :
    parseAmount ("5 ألف".data) = some 5 ∧ ((5 : ℚ) ≠ 5 * 1000) :=
  ⟨by decide, by norm_num⟩

unseal Rat.add Rat.mul Rat.sub Rat.inv Rat.ofScientific in
/-- Claim C8, counterexample: no currency rule matches either "مرحبا"
(Arabic script) or "hello" (Latin script), and both default to the same
code "EUR" — the default is not script-aware. -/
theorem C8_counterexample :
    detectCurrency ("مرحبا".data) = "EUR" ∧ detectCurrency ("hello".data) = "EUR" ∧
    (∀ r ∈ currencyRules, r.1.any (fun alt => ciOccursIn ("مرحبا".data) alt) = false) ∧
    (∀ r ∈ currencyRules, r.1.any (fun alt => ciOccursIn ("hello".data) alt) = false) :=
  ⟨by decide, by decide, by decide, by decide⟩

/-- Claim C10: parseAmount returns null exactly when no positive number is
extracted, and otherwise the maximum of the extracted positive numbers:
a member of the token list that bounds every token. -/
theorem C10_parseAmount_max (line : List Char) :
    (parseAmount line = none ↔ parseTokens line = []) ∧
    (∀ x ∈ parseTokens line, 0 < x) ∧
    ∀ a : ℚ, parseAmount line = some a →
      a ∈ parseTokens line ∧ ∀ x ∈ parseTokens line, x ≤ a := by
  refine ⟨parseAmount_none_iff line, fun x hx => parseTokens_pos hx, fun a ha => ?_⟩
  have h := parseAmount_spec ha
  exact ⟨h.1, h.2.2⟩

unseal Rat.add Rat.mul Rat.sub Rat.inv Rat.ofScientific in
theorem C10_parseAmount_max_witness :
    (7600 : ℚ) ∈ parseTokens ("20 380 7600".data) ∧
    ∀ x ∈ parseTokens ("20 380 7600".data), x ≤ 7600 :=
  (C10_parseAmount_max ("20 380 7600".data)).2.2 7600 (by decide)

/-! ## The keyword stage depends only on the last total-keyword line (C3) -/

/-- The last line (in raw form) whose normalisation carries a total
keyword — the only line the pre-pass ever looks at. -/
def lastTotalLine (s : String) : Option (List Char) :=
  ((totalHeaderIndices ((splitLines s.data).map normalizeLine)).getLast?).map
    fun i => (splitLines s.data).getD i []

theorem dropWhile_all_eq_nil {p : Char → Bool} {l : List Char}
    (h : ∀ c ∈ l, p c = true) : l.dropWhile p = [] := by
  induction l with
  | nil => rfl
  | cons c t ih =>
    rw [List.dropWhile_cons_of_pos (h c (List.mem_cons_self _ _))]
    exact ih fun x hx => h x (List.mem_cons_of_mem _ hx)

theorem mem_of_mem_takeWhile {p : Char → Bool} {l : List Char} {c : Char}
    (h : c ∈ l.takeWhile p) : p c = true ∧ c ∈ l := by
  induction l with
  | nil => simp [List.takeWhile] at h
  | cons x t ih =>
    rw [List.takeWhile_cons] at h
    by_cases hx : p x
    · rw [if_pos hx] at h
      rcases List.mem_cons.mp h with rfl | hm
      · exact ⟨hx, List.mem_cons_self _ _⟩
      · obtain ⟨h1, h2⟩ := ih hm
        exact ⟨h1, List.mem_cons_of_mem _ h2⟩
    · rw [if_neg hx] at h
      simp at h

theorem trimList_eq_nil {l : List Char} (h : ∀ c ∈ l, isJsWS c = true) :
    trimList l = [] := by
  unfold trimList
  rw [dropWhile_all_eq_nil h]
  rfl

theorem mem_of_mem_splitOnChar {sep : Char} {cs : List Char} {p : List Char} {c : Char}
    (hp : p ∈ splitOnChar sep cs) (hc : c ∈ p) : c ∈ cs := by
  induction cs generalizing p with
  | nil =>
    simp only [splitOnChar, List.mem_singleton] at hp
    subst hp
    simp at hc
  | cons x t ih =>
    simp only [splitOnChar] at hp
    split_ifs at hp with hx
    · rcases List.mem_cons.mp hp with rfl | hm
      · simp at hc
      · exact List.mem_cons_of_mem _ (ih hm hc)
    · rcases hrec : splitOnChar sep t with _ | ⟨q, qs⟩
      · rw [hrec] at hp
        simp only [List.mem_singleton] at hp
        subst hp
        rcases List.mem_cons.mp hc with rfl | hm
        · exact List.mem_cons_self _ _
        · simp at hm
      · rw [hrec] at hp
        rcases List.mem_cons.mp hp with rfl | hm
        · rcases List.mem_cons.mp hc with rfl | hm2
          · exact List.mem_cons_self _ _
          · exact List.mem_cons_of_mem _ (ih (hrec ▸ List.mem_cons_self _ _) hm2)
        · exact List.mem_cons_of_mem _ (ih (hrec ▸ List.mem_cons_of_mem _ hm) hc)

theorem splitLines_of_trim_empty {cs : List Char} (h : (trimList cs).isEmpty = true) :
    splitLines cs = [] := by
  have hall : ∀ c ∈ cs, isJsWS c = true := by
    intro c hc
    by_contra hcw
    unfold trimList at h
    rw [List.isEmpty_iff] at h
    have h1 : (cs.dropWhile isJsWS).reverse.dropWhile isJsWS = [] := by
      have := congrArg List.reverse h
      simpa using this
    have h2 : ∀ x ∈ (cs.dropWhile isJsWS).reverse, isJsWS x = true := by
      intro x hx
      by_contra hxw
      have hsub := List.dropWhile_sublist (l := (cs.dropWhile isJsWS).reverse) isJsWS
      rw [h1] at hsub
      -- if some non-ws element existed, dropWhile could not be empty
      rcases List.mem_reverse.mp hx with hx2
      -- derive contradiction directly: dropWhile of a list containing a ¬p element is nonempty
      clear hsub
      revert hxw
      intro hxw
      have : ∀ (l : List Char), (∃ y ∈ l, isJsWS y = false) → l.dropWhile isJsWS ≠ [] := by
        intro l
        induction l with
        | nil => rintro ⟨y, hy, -⟩; simp at hy
        | cons a t iht =>
          rintro ⟨y, hy, hyw⟩
          rw [List.dropWhile_cons]
          rcases List.mem_cons.mp hy with rfl | hm
          · rw [hyw]; simp
          · by_cases ha : isJsWS a
            · rw [ha]
              simp only [if_true]
              exact iht ⟨y, hm, hyw⟩
            · simp [ha]
      exact this _ ⟨x, hx, by simpa using hxw⟩ h1
    -- c is in cs; show c survives to (cs.dropWhile isJsWS).reverse or is ws
    -- cs = takeWhile ++ dropWhile; takeWhile elements are ws
    have hsplit := List.takeWhile_append_dropWhile (p := isJsWS) (l := cs)
    have hcs : c ∈ cs.takeWhile isJsWS ∨ c ∈ cs.dropWhile isJsWS := by
      rw [← List.mem_append, hsplit]
      exact hc
    rcases hcs with hm | hm
    · exact hcw (mem_of_mem_takeWhile hm).1
    · exact hcw (h2 c (List.mem_reverse.mpr hm))
  unfold splitLines
  rw [List.filter_eq_nil]
  intro p hp
  have : trimList p = [] := trimList_eq_nil fun c hc => hall c (mem_of_mem_splitOnChar hp hc)
  rw [this]
  decide

/-- Claim C3, amended: when at least one line carries a total keyword and
one of the four pre-pass patterns fires on the LAST such line, the entire
result of extractAmount is determined by that one line — amount and
currency are read off it and the confidence is one of the four fixed
values 0.99/0.98/0.97/0.96.  No later (or other) line is consulted: there
is no lookahead window. -/
theorem C3_keyword_stage (s : String) (l : List Char) (a c : ℚ)
    (h1 : lastTotalLine s = some l) (h2 : prePass l = some (a, c)) :
    extractAmount s = ⟨some a, detectCurrency l, c⟩ ∧
    (c = (0.99 : ℚ) ∨ c = (0.98 : ℚ) ∨ c = (0.97 : ℚ) ∨ c = (0.96 : ℚ)) := by
  have hconf := (prePass_spec h2).2
  constructor
  · unfold lastTotalLine at h1
    rw [Option.map_eq_some'] at h1
    obtain ⟨idx, hidx, hline⟩ := h1
    have hne : ¬(trimList s.data).isEmpty = true := by
      intro htr
      rw [splitLines_of_trim_empty htr] at hidx
      simp [totalHeaderIndices] at hidx
    show extractAmountL s.data = _
    simp only [extractAmountL]
    rw [if_neg hne]
    have hpre : prePassResult (splitLines s.data) ((splitLines s.data).map normalizeLine) =
        some ⟨some a, detectCurrency l, c⟩ := by
      simp only [prePassResult]
      rw [hidx]
      simp only []
      rw [hline, h2]
      rfl
    rw [hpre]
  · exact hconf

unseal Rat.add Rat.mul Rat.sub Rat.inv Rat.ofScientific in
theorem C3_keyword_stage_witness :
    extractAmount "الإجمالي 7 ألف" =
      ⟨some 7, detectCurrency (("الإجمالي 7 ألف").data), 0.98⟩ :=
  (C3_keyword_stage "الإجمالي 7 ألف" (("الإجمالي 7 ألف").data) 7 0.98
    (by decide) (by decide)).1

/-- Claim C8, amended: detectCurrency applies its ordered rule list and
returns the code of the first matching rule — every rule before the
matching one fails; when no rule matches, the default is "EUR" for every
input, regardless of script. -/
theorem C8_ordered_rules_default (cs : List Char) :
    (detectCurrency cs = "EUR" ∧
      ∀ r ∈ currencyRules, r.1.any (fun alt => ciOccursIn cs alt) = false) ∨
    (∃ pre r post, currencyRules = pre ++ r :: post ∧
      r.1.any (fun alt => ciOccursIn cs alt) = true ∧ detectCurrency cs = r.2 ∧
      ∀ q ∈ pre, q.1.any (fun alt => ciOccursIn cs alt) = false) := by
  rcases hf : currencyRules.findSome?
      (fun r => if r.1.any (fun alt => ciOccursIn cs alt) then some r.2 else none)
      with _ | code
  · left
    refine ⟨?_, fun r hr => ?_⟩
    · unfold detectCurrency
      rw [hf]
    · have hnone := List.findSome?_eq_none_iff.mp hf r hr
      by_cases ht : r.1.any (fun alt => ciOccursIn cs alt)
      · rw [if_pos ht] at hnone
        exact absurd hnone (by simp)
      · simpa using ht
  · right
    have hf2 := hf
    rw [List.findSome?_eq_some_iff] at hf2
    obtain ⟨pre, r, post, heq, hr, hpre⟩ := hf2
    have hcond : r.1.any (fun alt => ciOccursIn cs alt) = true := by
      by_cases ht : r.1.any (fun alt => ciOccursIn cs alt)
      · exact ht
      · rw [if_neg ht] at hr
        exact absurd hr (by simp)
    have hcode : code = r.2 := by
      rw [if_pos hcond] at hr
      exact (Option.some.inj hr).symm
    refine ⟨pre, r, post, heq, hcond, ?_, fun q hq => ?_⟩
    · unfold detectCurrency
      rw [hf]
      exact hcode
    · have hnone := hpre q hq
      by_cases ht : q.1.any (fun alt => ciOccursIn cs alt)
      · rw [if_pos ht] at hnone
        exact absurd hnone (by simp)
      · simpa using ht

theorem C8_ordered_rules_default_witness :
    (detectCurrency ("hello".data) = "EUR" ∧
      ∀ r ∈ currencyRules, r.1.any (fun alt => ciOccursIn ("hello".data) alt) = false) ∨
    (∃ pre r post, currencyRules = pre ++ r :: post ∧
      r.1.any (fun alt => ciOccursIn ("hello".data) alt) = true ∧
      detectCurrency ("hello".data) = r.2 ∧
      ∀ q ∈ pre, q.1.any (fun alt => ciOccursIn ("hello".data) alt) = false) :=
  C8_ordered_rules_default ("hello".data)

/-! ## Characters that the parseAmount cleaning steps leave untouched -/

/-- Digits, JS whitespace, pipe and dash: the characters a table row is
made of after stripping, none of which can start a word-alternative
match. -/
def isStructChar (c : Char) : Bool :=
  isDigitC c || isJsWS c || c = '|' || c = '-'

theorem struct_toNat_facts {c : Char} (hc : isStructChar c = true) :
    (48 ≤ c.toNat ∧ c.toNat ≤ 57) ∨ c.toNat = 0x20 ∨ c.toNat = 0x9 ∨ c.toNat = 0xa ∨
    c.toNat = 0xb ∨ c.toNat = 0xc ∨ c.toNat = 0xd ∨ c.toNat = 0xa0 ∨ c.toNat = 0x1680 ∨
    (0x2000 ≤ c.toNat ∧ c.toNat ≤ 0x200a) ∨ c.toNat = 0x2028 ∨ c.toNat = 0x2029 ∨
    c.toNat = 0x202f ∨ c.toNat = 0x205f ∨ c.toNat = 0x3000 ∨ c.toNat = 0xfeff ∨
    c.toNat = 0x7c ∨ c.toNat = 0x2d := by
  unfold isStructChar isDigitC isJsWS at hc
  simp only [Bool.or_eq_true, Bool.and_eq_true, decide_eq_true_eq] at hc
  rcases hc with ((h | h) | h) | h
  · left; exact h
  · tauto
  · subst h; right; tauto
  · subst h; right; tauto

theorem jsLower_struct {c : Char} (hc : isStructChar c = true) : jsLower c = c := by
  have hfacts := struct_toNat_facts hc
  unfold jsLower
  rw [if_neg]
  simp only [Bool.and_eq_true, decide_eq_true_eq, not_and]
  intro h1 h2
  omega

theorem ciLeads_head_false {h c : Char} {rest cs : List Char}
    (hne : ¬ jsLower h = jsLower c) : ciLeads (h :: rest) (c :: cs) = false := by
  simp [ciLeads, hne]

theorem altMatchAt_struct_none {alts : List (List Char)}
    (halts : alts = wordAlts1 ∨ alts = wordAlts2) {prev : Option Char} {c : Char}
    {cs : List Char} (hc : isStructChar c = true) :
    altMatchAt alts prev (c :: cs) = none := by
  have hfacts := struct_toNat_facts hc
  have hlow := jsLower_struct hc
  unfold altMatchAt
  rw [List.findSome?_eq_none_iff]
  intro alt halt
  have hmem : alt ∈ wordAlts1 ++ wordAlts2 := by
    rcases halts with rfl | rfl
    · exact List.mem_append_left _ halt
    · exact List.mem_append_right _ halt
  have hdec : ∃ (h : Char) (rest : List Char), alt = h :: rest ∧
      (h.toNat = 0x623 ∨ h.toNat = 0x627 ∨ h.toNat = 0x645 ∨ h.toNat = 0x74 ∨
       h.toNat = 0x6d ∨ h.toNat = 0x6b ∨ h.toNat = 0x62c ∨ h.toNat = 0x62f ∨
       h.toNat = 0x64a ∨ h.toNat = 0x631 ∨ h.toNat = 0x70 ∨ h.toNat = 0x64 ∨
       h.toNat = 0x65 ∨ h.toNat = 0x75 ∨ h.toNat = 0x63) := by
    fin_cases hmem <;> exact ⟨_, _, rfl, by decide⟩
  obtain ⟨h, rest, rfl, hh⟩ := hdec
  have hjh : jsLower h = h := by
    unfold jsLower
    rw [if_neg]
    simp only [Bool.and_eq_true, decide_eq_true_eq, not_and]
    intro h1 h2
    omega
  have hne : ¬ jsLower h = jsLower c := by
    rw [hjh, hlow]
    intro heq
    have : h.toNat = c.toNat := congrArg Char.toNat heq
    omega
  rw [ciLeads_head_false hne]
  simp

/-- No position of `cs` (with `prev` before it) starts a word match. -/
def noMatchScan (alts : List (List Char)) : Option Char → List Char → Bool
  | _, [] => true
  | prev, c :: rest => (altMatchAt alts prev (c :: rest)).isNone && noMatchScan alts (some c) rest

theorem replaceWordsAux_id {alts : List (List Char)} :
    ∀ (fuel : Nat) (prev : Option Char) (cs : List Char),
      noMatchScan alts prev cs = true → replaceWordsAux alts fuel prev cs = cs := by
  intro fuel
  induction fuel with
  | zero => intro prev cs _; rfl
  | succ n ih =>
    intro prev cs hscan
    cases cs with
    | nil => rfl
    | cons c rest =>
      simp only [noMatchScan, Bool.and_eq_true, Option.isNone_iff_eq_none] at hscan
      show replaceWordsAux alts (n + 1) prev (c :: rest) = c :: rest
      rw [replaceWordsAux]
      rw [hscan.1]
      simp only []
      rw [ih (some c) rest hscan.2]

theorem noMatchScan_struct {alts : List (List Char)}
    (halts : alts = wordAlts1 ∨ alts = wordAlts2) :
    ∀ (cs : List Char), (∀ c ∈ cs, isStructChar c = true) →
      ∀ prev, noMatchScan alts prev cs = true := by
  intro cs
  induction cs with
  | nil => intro _ prev; rfl
  | cons c rest ih =>
    intro hall prev
    simp only [noMatchScan, Bool.and_eq_true, Option.isNone_iff_eq_none]
    exact ⟨altMatchAt_struct_none halts (hall c (List.mem_cons_self _ _)),
      ih (fun x hx => hall x (List.mem_cons_of_mem _ hx)) (some c)⟩

theorem replaceWords_struct_id {alts : List (List Char)}
    (halts : alts = wordAlts1 ∨ alts = wordAlts2) {cs : List Char}
    (hall : ∀ c ∈ cs, isStructChar c = true) {prev : Option Char} :
    replaceWords alts prev cs = cs :=
  replaceWordsAux_id _ _ _ (noMatchScan_struct halts cs hall prev)

theorem map_eq_self_of {f : Char → Char} {cs : List Char} (h : ∀ c ∈ cs, f c = c) :
    cs.map f = cs := by
  induction cs with
  | nil => rfl
  | cons c t ih =>
    rw [List.map_cons, h c (List.mem_cons_self _ _),
      ih fun x hx => h x (List.mem_cons_of_mem _ hx)]

theorem replaceCurrencySym_struct_id {cs : List Char}
    (hall : ∀ c ∈ cs, isStructChar c = true) : replaceCurrencySym cs = cs := by
  unfold replaceCurrencySym
  apply map_eq_self_of
  intro c hc
  have hfacts := struct_toNat_facts (hall c hc)
  rw [if_neg]
  simp only [Bool.or_eq_true, decide_eq_true_eq, not_or]
  refine ⟨⟨⟨⟨?_, ?_⟩, ?_⟩, ?_⟩, ?_⟩ <;>
    (intro heq; have := congrArg Char.toNat heq; simp at this; omega)

theorem stripChar_struct {c : Char} (hc : isStructChar c = true) : stripChar c = c := by
  unfold stripChar
  rw [if_pos]
  unfold isStructChar at hc
  simp only [Bool.or_eq_true, decide_eq_true_eq] at hc ⊢
  tauto

theorem lookup_none_of_ne {c : Char} (l : List (Char × Char))
    (h : ∀ k ∈ l.map Prod.fst, ¬ c = k) : List.lookup c l = none := by
  induction l with
  | nil => rfl
  | cons kv t ih =>
    rw [List.lookup]
    have hk : ¬ c = kv.1 := h kv.1 (by simp)
    have hbeq : (c == kv.1) = false := by
      simp only [beq_eq_false_iff_ne, ne_eq]
      exact hk
    rw [hbeq]
    exact ih fun k hkm => h k (List.mem_cons_of_mem _ hkm)

theorem normalizeDigits_struct_id {cs : List Char}
    (hall : ∀ c ∈ cs, isStructChar c = true) : normalizeDigits cs = cs := by
  unfold normalizeDigits
  apply map_eq_self_of
  intro c hc
  have hfacts := struct_toNat_facts (hall c hc)
  have ha : arabicToWestern c = none := by
    apply lookup_none_of_ne
    intro k hk
    fin_cases hk <;> (intro heq; have := congrArg Char.toNat heq; simp at this; omega)
  have hp : persianToWestern c = none := by
    apply lookup_none_of_ne
    intro k hk
    fin_cases hk <;> (intro heq; have := congrArg Char.toNat heq; simp at this; omega)
  rw [ha, hp]
  rfl

theorem not_ws_of_digit {c : Char} (hc : isDigitC c = true) : isJsWS c = false := by
  unfold isDigitC at hc
  unfold isJsWS
  simp only [Bool.and_eq_true, decide_eq_true_eq] at hc
  simp only [Bool.or_eq_false_iff, Bool.and_eq_false_iff, decide_eq_false_iff_not]
  omega

theorem wsRun_digit_head {c : Char} {cs : List Char} (hc : isDigitC c = true) :
    wsRun (c :: cs) = 0 := by
  unfold wsRun
  rw [List.takeWhile_cons_of_neg (by simp [not_ws_of_digit hc])]
  rfl

theorem wsRun_digit_list {b : List Char} (hb : ∀ c ∈ b, isDigitC c = true) : wsRun b = 0 := by
  cases b with
  | nil => rfl
  | cons c t => exact wsRun_digit_head (hb c (List.mem_cons_self _ _))

theorem digit_ne_pipe {c : Char} (hc : isDigitC c = true) : ¬ c = '|' := by
  intro heq
  subst heq
  exact absurd hc (by decide)

theorem sepLenAt_digit_head {c : Char} {cs : List Char} (hc : isDigitC c = true) :
    sepLenAt (c :: cs) = none := by
  unfold sepLenAt
  rw [wsRun_digit_head hc]
  rw [List.drop_zero]
  rw [if_neg (by simpa using digit_ne_pipe hc)]
  rw [if_neg (by omega)]
  rw [if_neg]
  simp only [List.head?_cons, Option.elim_some, Bool.and_eq_true]
  intro hand
  rw [not_ws_of_digit hc] at hand
  simp at hand

theorem findSep_digit_none {a : List Char} (ha : ∀ c ∈ a, isDigitC c = true) :
    findSep a = none := by
  induction a with
  | nil => rfl
  | cons c t ih =>
    rw [findSep_cons, sepLenAt_digit_head (ha c (List.mem_cons_self _ _))]
    simp only []
    rw [ih fun x hx => ha x (List.mem_cons_of_mem _ hx)]
    rfl

theorem findSep_digit_append {a r : List Char} (ha : ∀ c ∈ a, isDigitC c = true) :
    findSep (a ++ r) = (findSep r).map fun p => (p.1 + a.length, p.2) := by
  induction a with
  | nil =>
    rcases h : findSep r with _ | p
    · simp [h]
    · simp [h]
  | cons c t ih =>
    rw [List.cons_append, findSep_cons,
      sepLenAt_digit_head (ha c (List.mem_cons_self _ _))]
    simp only []
    rw [ih fun x hx => ha x (List.mem_cons_of_mem _ hx)]
    rcases h : findSep r with _ | p
    · rfl
    · simp only [Option.map_some', Option.some.injEq, Prod.mk.injEq, List.length_cons]
      exact ⟨by omega, trivial⟩

theorem splitPartsAux_of_none {cs : List Char} (h : findSep cs = none) (fuel : Nat) :
    splitPartsAux fuel cs = [cs] := by
  cases fuel with
  | zero => rfl
  | succ n =>
    rw [splitPartsAux, h]

theorem splitParts_digit {a : List Char} (ha : ∀ c ∈ a, isDigitC c = true) :
    splitParts a = [a] :=
  splitPartsAux_of_none (findSep_digit_none ha) _

theorem sepLenAt_pipe {b : List Char} (hb : ∀ c ∈ b, isDigitC c = true) :
    sepLenAt ('|' :: b) = some 1 := by
  unfold sepLenAt
  have hws : wsRun ('|' :: b) = 0 := by
    unfold wsRun
    rw [List.takeWhile_cons_of_neg (by decide)]
    rfl
  rw [hws, List.drop_zero]
  rw [if_pos (by simp)]
  rw [List.tail_cons, wsRun_digit_list hb]

theorem sepLenAt_spaces {b : List Char} (hb : ∀ c ∈ b, isDigitC c = true) :
    sepLenAt (' ' :: ' ' :: ' ' :: b) = some 3 := by
  unfold sepLenAt
  have hws : wsRun (' ' :: ' ' :: ' ' :: b) = 3 := by
    unfold wsRun
    rw [List.takeWhile_cons_of_pos (by decide), List.takeWhile_cons_of_pos (by decide),
      List.takeWhile_cons_of_pos (by decide)]
    have : List.takeWhile isJsWS b = [] := by
      cases b with
      | nil => rfl
      | cons c t =>
        rw [List.takeWhile_cons_of_neg]
        simp [not_ws_of_digit (hb c (List.mem_cons_self _ _))]
    rw [this]
    rfl
  rw [hws]
  rw [if_neg]
  · rw [if_pos (by omega)]
  · show ¬ (List.drop 3 (' ' :: ' ' :: ' ' :: b)).head? = some '|'
    show ¬ (List.drop 0 b).head? = some '|'
    rw [List.drop_zero]
    cases b with
    | nil => simp
    | cons c t =>
      simp only [List.head?_cons, Option.some.injEq]
      exact digit_ne_pipe (hb c (List.mem_cons_self _ _))

theorem sepLenAt_dash {b : List Char} (hb : ∀ c ∈ b, isDigitC c = true) :
    sepLenAt (' ' :: '-' :: ' ' :: b) = some 3 := by
  unfold sepLenAt
  have hws : wsRun (' ' :: '-' :: ' ' :: b) = 1 := by
    unfold wsRun
    rw [List.takeWhile_cons_of_pos (by decide), List.takeWhile_cons_of_neg (by decide)]
    rfl
  rw [hws]
  rw [if_neg]
  · rw [if_neg (by omega)]
    have h1 : (' ' :: '-' :: ' ' :: b).get? 1 = some '-' := rfl
    have h2 : (' ' :: '-' :: ' ' :: b).get? 2 = some ' ' := rfl
    have hcond : ((' ' :: '-' :: ' ' :: b).head?.elim false isJsWS &&
        decide ((' ' :: '-' :: ' ' :: b).get? 1 = some '-') &&
        ((' ' :: '-' :: ' ' :: b).get? 2).elim false isJsWS) = true := by
      rw [h1, h2]
      simp only [List.head?_cons, Option.elim_some]
      decide
    rw [if_pos hcond]
  · show ¬ (List.drop 1 (' ' :: '-' :: ' ' :: b)).head? = some '|'
    simp

theorem struct_of_digit {c : Char} (hc : isDigitC c = true) : isStructChar c = true := by
  unfold isStructChar
  rw [hc]
  rfl

/-- On text made only of digits, whitespace, pipes and dashes, every
cleaning step of `parseAmount` is the identity, so the token list is the
per-segment extraction over the structural split of the text itself. -/
theorem parseTokens_struct_split {t : List Char} (hall : ∀ c ∈ t, isStructChar c = true) :
    parseTokens t = ((splitParts t).map partNumbers).flatten := by
  simp only [parseTokens]
  rw [normalizeDigits_struct_id hall,
    replaceWords_struct_id (Or.inl rfl) hall,
    replaceWords_struct_id (Or.inr rfl) hall,
    replaceCurrencySym_struct_id hall,
    map_eq_self_of fun c hc => stripChar_struct (hall c hc)]

theorem splitParts_sep_digit {a b sep : List Char}
    (hsep : sep = ("|".data) ∨ sep = ("   ".data) ∨ sep = (" - ".data))
    (ha : ∀ c ∈ a, isDigitC c = true) (hb : ∀ c ∈ b, isDigitC c = true) :
    splitParts (a ++ sep ++ b) = [a, b] := by
  have hfs : findSep (a ++ sep ++ b) = some (a.length, sep.length) := by
    rw [List.append_assoc]
    rw [findSep_digit_append ha]
    have h2 : findSep (sep ++ b) = some (0, sep.length) := by
      rcases hsep with rfl | rfl | rfl
      · rw [show (("|".data) ++ b) = '|' :: b from rfl, findSep_cons, sepLenAt_pipe hb]
        rfl
      · rw [show (("   ".data) ++ b) = ' ' :: ' ' :: ' ' :: b from rfl, findSep_cons,
          sepLenAt_spaces hb]
        rfl
      · rw [show ((" - ".data) ++ b) = ' ' :: '-' :: ' ' :: b from rfl, findSep_cons,
          sepLenAt_dash hb]
        rfl
    rw [h2]
    simp
  have hlen : ∃ n, (a ++ sep ++ b).length = n + 1 := by
    have hpos : 1 ≤ sep.length := by rcases hsep with rfl | rfl | rfl <;> decide
    simp only [List.length_append]
    exact ⟨a.length + sep.length + b.length - 1, by omega⟩
  obtain ⟨n, hn⟩ := hlen
  unfold splitParts
  rw [hn, splitPartsAux, hfs]
  simp only []
  congr 1
  · rw [List.append_assoc, List.take_left]
  · have hdrop : (a ++ sep ++ b).drop (a.length + sep.length) = b := by
      rw [List.drop_left']
      simp
    rw [hdrop, splitPartsAux_of_none (findSep_digit_none hb)]

unseal Rat.add Rat.mul Rat.sub Rat.inv Rat.ofScientific in
/-- Claim C5: the line "40 550 |22000" contributes 22000 (its rightmost
column) as the selected amount, not the fused 40550; and in general the
numbers on the two sides of a structural separator (pipe, three spaces,
space-dash-space) are tokenised independently — the separator's token
list is exactly the concatenation of the two sides' token lists, so no
token ever fuses digits across the separator. -/
theorem C5_column_fusion_guard :
    (extractAmount "40 550 |22000").amount = some 22000 ∧
    ∀ (a b sep : List Char),
      sep = ("|".data) ∨ sep = ("   ".data) ∨ sep = (" - ".data) →
      (∀ c ∈ a, isDigitC c = true) → (∀ c ∈ b, isDigitC c = true) →
      parseTokens (a ++ sep ++ b) = parseTokens a ++ parseTokens b := by
  constructor
  · decide
  · intro a b sep hsep ha hb
    have hstructa : ∀ c ∈ a, isStructChar c = true := fun c hc => struct_of_digit (ha c hc)
    have hstructb : ∀ c ∈ b, isStructChar c = true := fun c hc => struct_of_digit (hb c hc)
    have hsepstruct : ∀ c ∈ sep, isStructChar c = true := by
      rcases hsep with rfl | rfl | rfl <;> decide
    have hall : ∀ c ∈ a ++ sep ++ b, isStructChar c = true := by
      intro c hc
      rcases List.mem_append.mp hc with hc2 | hc2
      · rcases List.mem_append.mp hc2 with hc3 | hc3
        · exact hstructa c hc3
        · exact hsepstruct c hc3
      · exact hstructb c hc2
    rw [parseTokens_struct_split hall, parseTokens_struct_split hstructa,
      parseTokens_struct_split hstructb, splitParts_digit ha, splitParts_digit hb,
      splitParts_sep_digit hsep ha hb]
    simp

unseal Rat.add Rat.mul Rat.sub Rat.inv Rat.ofScientific in
theorem C5_column_fusion_guard_witness :
    parseTokens (("40".data) ++ ("|".data) ++ ("550".data)) =
      parseTokens ("40".data) ++ parseTokens ("550".data) :=
  C5_column_fusion_guard.2 ("40".data) ("550".data) ("|".data) (Or.inl rfl)
    (by decide) (by decide)

theorem noMatchScan_cons {alts : List (List Char)} {prev : Option Char} {c : Char}
    {rest : List Char} :
    noMatchScan alts prev (c :: rest) =
      ((altMatchAt alts prev (c :: rest)).isNone && noMatchScan alts (some c) rest) := rfl

theorem noMatchScan_digits_append {alts : List (List Char)}
    (halts : alts = wordAlts1 ∨ alts = wordAlts2) {tail : List Char}
    (htail : ∀ prev, noMatchScan alts prev tail = true) :
    ∀ (ds : List Char), (∀ c ∈ ds, isDigitC c = true) →
      ∀ prev, noMatchScan alts prev (ds ++ tail) = true := by
  intro ds
  induction ds with
  | nil => intro _ prev; exact htail prev
  | cons c t ih =>
    intro hd prev
    rw [List.cons_append, noMatchScan_cons,
      altMatchAt_struct_none halts (struct_of_digit (hd c (List.mem_cons_self _ _)))]
    rw [ih (fun x hx => hd x (List.mem_cons_of_mem _ hx)) (some c)]
    rfl

theorem scan_alef_tail1 : ∀ prev, noMatchScan wordAlts1 prev ((" ألف").data) = true := by
  intro prev
  rw [show ((" ألف").data) = ' ' :: (("ألف").data) from rfl, noMatchScan_cons,
    altMatchAt_struct_none (Or.inl rfl) (by decide)]
  decide

theorem scan_alef_tail2 : ∀ prev, noMatchScan wordAlts2 prev ((" ألف").data) = true := by
  intro prev
  rw [show ((" ألف").data) = ' ' :: (("ألف").data) from rfl, noMatchScan_cons,
    altMatchAt_struct_none (Or.inr rfl) (by decide)]
  decide

/-- On a digit run followed by the thousands word, the cleaning steps of
`parseAmount` leave the digits untouched and blank the Arabic letters, so
the split yields the digit run (plus an empty trailing segment) and the
token list is exactly that of the digit run alone. -/
theorem parseTokens_digits_alef {ds : List Char} (h : ∀ c ∈ ds, isDigitC c = true) :
    parseTokens (ds ++ ((" ألف").data)) = partNumbers ds := by
  have hnorm : normalizeDigits (ds ++ ((" ألف").data)) = ds ++ ((" ألف").data) := by
    apply map_eq_self_of
    intro c hc
    rcases List.mem_append.mp hc with hc2 | hc2
    · have hfacts := struct_toNat_facts (struct_of_digit (h c hc2))
      have ha : arabicToWestern c = none := by
        apply lookup_none_of_ne
        intro k hk
        fin_cases hk <;> (intro heq; have := congrArg Char.toNat heq; simp at this; omega)
      have hp : persianToWestern c = none := by
        apply lookup_none_of_ne
        intro k hk
        fin_cases hk <;> (intro heq; have := congrArg Char.toNat heq; simp at this; omega)
      rw [ha, hp]
      rfl
    · fin_cases hc2 <;> decide
  have hw1 : replaceWords wordAlts1 none (ds ++ ((" ألف").data)) = ds ++ ((" ألف").data) :=
    replaceWordsAux_id _ _ _ (noMatchScan_digits_append (Or.inl rfl) scan_alef_tail1 ds h none)
  have hw2 : replaceWords wordAlts2 none (ds ++ ((" ألف").data)) = ds ++ ((" ألف").data) :=
    replaceWordsAux_id _ _ _ (noMatchScan_digits_append (Or.inr rfl) scan_alef_tail2 ds h none)
  have hsym : replaceCurrencySym (ds ++ ((" ألف").data)) = ds ++ ((" ألف").data) := by
    unfold replaceCurrencySym
    apply map_eq_self_of
    intro c hc
    rcases List.mem_append.mp hc with hc2 | hc2
    · have hfacts := struct_toNat_facts (struct_of_digit (h c hc2))
      rw [if_neg]
      simp only [Bool.or_eq_true, decide_eq_true_eq, not_or]
      refine ⟨⟨⟨⟨?_, ?_⟩, ?_⟩, ?_⟩, ?_⟩ <;>
        (intro heq; have := congrArg Char.toNat heq; simp at this; omega)
    · fin_cases hc2 <;> decide
  have hstrip : (ds ++ ((" ألف").data)).map stripChar =
      ds ++ [' ', ' ', ' ', ' '] := by
    rw [List.map_append,
      map_eq_self_of fun c hc => stripChar_struct (struct_of_digit (h c hc))]
    rfl
  have hsplit : splitParts (ds ++ [' ', ' ', ' ', ' ']) = [ds, []] := by
    have hfs : findSep (ds ++ [' ', ' ', ' ', ' ']) = some (ds.length, 4) := by
      rw [findSep_digit_append h]
      rw [show findSep [' ', ' ', ' ', ' '] = some (0, 4) from by decide]
      simp
    have hlen : ∃ n, (ds ++ [' ', ' ', ' ', ' ']).length = n + 1 := by
      exact ⟨ds.length + 3,
        by simp only [List.length_append, List.length_cons, List.length_nil]⟩
    obtain ⟨n, hn⟩ := hlen
    unfold splitParts
    rw [hn, splitPartsAux, hfs]
    simp only []
    congr 1
    · exact List.take_left ds _
    · rw [show ds.length + 4 = (ds ++ [' ', ' ', ' ', ' ']).length from by simp,
        List.drop_length]
      exact splitPartsAux_of_none findSep_nil n
  simp only [parseTokens]
  rw [hnorm, hw1, hw2, hsym, hstrip, hsplit]
  simp only [List.map_cons, List.map_nil, List.flatten_cons, List.flatten_nil]
  rw [show partNumbers [] = [] from by decide]
  simp

unseal Rat.add Rat.mul Rat.sub Rat.inv Rat.ofScientific in
/-- Claim C7, amended: the parser applies no ×1000 scaling — appending the
Arabic thousands word to a digit run leaves the extracted tokens (and
hence parseAmount's result) unchanged; the word's letters are stripped to
whitespace, never multiplied into the value. -/
theorem C7_no_thousand_scaling (ds : List Char) (h : ∀ c ∈ ds, isDigitC c = true) :
    parseTokens (ds ++ ((" ألف").data)) = parseTokens ds ∧
    parseAmount (ds ++ ((" ألف").data)) = parseAmount ds := by
  have htok : parseTokens (ds ++ ((" ألف").data)) = parseTokens ds := by
    rw [parseTokens_digits_alef h,
      parseTokens_struct_split fun c hc => struct_of_digit (h c hc),
      splitParts_digit h]
    simp
  exact ⟨htok, by unfold parseAmount; rw [htok]⟩

unseal Rat.add Rat.mul Rat.sub Rat.inv Rat.ofScientific in
theorem C7_no_thousand_scaling_witness :
    parseTokens (("5").data ++ ((" ألف").data)) = parseTokens (("5").data) ∧
    parseAmount (("5").data ++ ((" ألف").data)) = parseAmount (("5").data) :=
  C7_no_thousand_scaling (("5").data) (by decide)

/-! ## C9 support: a digit-free input reaches the null fallback result -/

/-- A character the pipeline can read a number from: an ASCII digit or an
Arabic-Indic / Extended-Arabic digit (which `normalizeDigits` maps to an
ASCII digit). -/
def isAnyDigit (c : Char) : Bool :=
  isDigitC c || (arabicToWestern c).isSome || (persianToWestern c).isSome

theorem isAnyDigit_split {c : Char} (h : isAnyDigit c = false) :
    isDigitC c = false ∧ arabicToWestern c = none ∧ persianToWestern c = none := by
  unfold isAnyDigit at h
  refine ⟨?_, ?_, ?_⟩
  · cases hD : isDigitC c
    · rfl
    · rw [hD] at h; simp at h
  · rcases ha : arabicToWestern c with _ | v
    · rfl
    · rw [ha] at h; simp at h
  · rcases hp : persianToWestern c with _ | v
    · rfl
    · rw [hp] at h; simp at h

theorem mem_of_mem_dropWhileG {α : Type} {p : α → Bool} {l : List α} {a : α}
    (h : a ∈ l.dropWhile p) : a ∈ l := by
  induction l with
  | nil => simpa using h
  | cons c cs ih =>
    rw [List.dropWhile_cons] at h
    by_cases hc : p c = true
    · rw [if_pos hc] at h
      exact List.mem_cons_of_mem _ (ih h)
    · rw [if_neg hc] at h
      exact h

theorem mem_of_mem_trimList {l : List Char} {c : Char} (h : c ∈ trimList l) : c ∈ l := by
  unfold trimList at h
  rw [List.mem_reverse] at h
  exact mem_of_mem_dropWhileG (List.mem_reverse.mp (mem_of_mem_dropWhileG h))

theorem takeWhile_digit_nil {l : List Char} (h : ∀ c ∈ l, isDigitC c = false) :
    l.takeWhile isDigitC = [] := by
  cases l with
  | nil => rfl
  | cons c cs =>
    rw [List.takeWhile_cons, if_neg (by simp [h c (List.mem_cons_self _ _)])]

theorem normalizeDigits_eq_self {l : List Char} (h : ∀ c ∈ l, isAnyDigit c = false) :
    normalizeDigits l = l := by
  unfold normalizeDigits
  apply map_eq_self_of
  intro c hc
  obtain ⟨-, ha, hp⟩ := isAnyDigit_split (h c hc)
  rw [ha, hp]
  rfl

theorem digitsCap_mem_tail {it : RItem} {rest : List RItem}
    (hmem : RItem.digitsCap ∈ it :: rest) (hne : it ≠ RItem.digitsCap) :
    RItem.digitsCap ∈ rest := by
  rcases List.mem_cons.mp hmem with h | h
  · exact absurd h.symm hne
  · exact h

theorem matchItemsAux_digit_none (fuel : Nat) :
    ∀ (its : List RItem) (cs : List Char), RItem.digitsCap ∈ its →
      (∀ c ∈ cs, isDigitC c = false) → matchItemsAux fuel its cs = none := by
  induction fuel with
  | zero => intro its cs _ _; rfl
  | succ n ih =>
    intro its cs hmem hd
    cases its with
    | nil => exact absurd hmem (List.not_mem_nil _)
    | cons it rest =>
      cases it with
      | lit l =>
        have hm2 := digitsCap_mem_tail hmem (by simp)
        simp only [matchItemsAux]
        split
        · exact ih rest _ hm2 fun c hc => hd c (List.mem_of_mem_drop hc)
        · rfl
      | anyLazy =>
        have hm2 := digitsCap_mem_tail hmem (by simp)
        cases cs with
        | nil =>
          simp only [matchItemsAux]
          exact ih rest [] hm2 (by intro c hc; simp at hc)
        | cons c cs2 =>
          simp only [matchItemsAux]
          rw [ih rest (c :: cs2) hm2 hd]
          simp only []
          split
          · rfl
          · exact ih (RItem.anyLazy :: rest) cs2 hmem
              fun x hx => hd x (List.mem_cons_of_mem _ hx)
      | wsGreedy =>
        have hm2 := digitsCap_mem_tail hmem (by simp)
        simp only [matchItemsAux]
        exact ih rest _ hm2 fun c hc => hd c (mem_of_mem_dropWhileG hc)
      | digitsCap =>
        simp only [matchItemsAux]
        rw [takeWhile_digit_nil hd]
        rfl
      | optLit ch =>
        have hm2 := digitsCap_mem_tail hmem (by simp)
        cases cs with
        | nil =>
          simp only [matchItemsAux]
          exact ih rest [] hm2 (by intro c hc; simp at hc)
        | cons c2 cs2 =>
          simp only [matchItemsAux]
          split
          · exact ih rest cs2 hm2 fun x hx => hd x (List.mem_cons_of_mem _ hx)
          · exact ih rest (c2 :: cs2) hm2 hd

theorem regexCapture_digit_none {items : List RItem} {cs : List Char}
    (hm : RItem.digitsCap ∈ items) (hd : ∀ c ∈ cs, isDigitC c = false) :
    regexCapture items cs = none := by
  induction cs with
  | nil =>
    simp only [regexCapture]
    exact matchItemsAux_digit_none _ _ _ hm (by intro c hc; simp at hc)
  | cons c t ih =>
    simp only [regexCapture]
    rw [show matchItems items (c :: t) = none from matchItemsAux_digit_none _ _ _ hm hd]
    simp only []
    exact ih fun x hx => hd x (List.mem_cons_of_mem _ hx)

theorem firstDigitRun_digit_none {cs : List Char}
    (hd : ∀ c ∈ cs, isDigitC c = false) : firstDigitRun cs = none := by
  induction cs with
  | nil => rfl
  | cons c t ih =>
    simp only [firstDigitRun]
    rw [if_neg (by simp [hd c (List.mem_cons_self _ _)])]
    exact ih fun x hx => hd x (List.mem_cons_of_mem _ hx)

theorem numMatchesAux_digit_nil (fuel : Nat) :
    ∀ cs : List Char, (∀ c ∈ cs, isDigitC c = false) → numMatchesAux fuel cs = [] := by
  induction fuel with
  | zero => intro cs _; rfl
  | succ n ih =>
    intro cs hd
    cases cs with
    | nil => rfl
    | cons c t =>
      simp only [numMatchesAux]
      rw [if_neg (by simp [hd c (List.mem_cons_self _ _)])]
      exact ih t fun x hx => hd x (List.mem_cons_of_mem _ hx)

theorem numMatches_digit_nil {cs : List Char} (h : ∀ c ∈ cs, isDigitC c = false) :
    numMatches cs = [] :=
  numMatchesAux_digit_nil cs.length cs h

theorem collapseWSAux_digit_free (l : List Char) :
    ∀ (b : Bool), (∀ c ∈ l, isDigitC c = false) →
      ∀ c ∈ collapseWSAux b l, isDigitC c = false := by
  induction l with
  | nil => intro b _ c hc; simp [collapseWSAux] at hc
  | cons a t ih =>
    intro b hd c hc
    simp only [collapseWSAux] at hc
    by_cases ha : isJsWS a = true
    · rw [if_pos ha] at hc
      by_cases hb : b = true
      · rw [if_pos hb] at hc
        exact ih true (fun x hx => hd x (List.mem_cons_of_mem _ hx)) c hc
      · rw [if_neg hb] at hc
        rcases List.mem_cons.mp hc with h | h
        · subst h; decide
        · exact ih true (fun x hx => hd x (List.mem_cons_of_mem _ hx)) c h
    · rw [if_neg ha] at hc
      rcases List.mem_cons.mp hc with h | h
      · subst h; exact hd _ (List.mem_cons_self _ _)
      · exact ih false (fun x hx => hd x (List.mem_cons_of_mem _ hx)) c h

theorem replaceWordsAux_digit_free (alts : List (List Char)) (fuel : Nat) :
    ∀ (prev : Option Char) (cs : List Char), (∀ c ∈ cs, isDigitC c = false) →
      ∀ c ∈ replaceWordsAux alts fuel prev cs, isDigitC c = false := by
  induction fuel with
  | zero => intro prev cs hd c hc; exact hd c hc
  | succ n ih =>
    intro prev cs hd c hc
    cases cs with
    | nil => simp [replaceWordsAux] at hc
    | cons a t =>
      simp only [replaceWordsAux] at hc
      rcases hm : altMatchAt alts prev (a :: t) with _ | nn
      · rw [hm] at hc
        simp only [] at hc
        rcases List.mem_cons.mp hc with h | h
        · subst h; exact hd _ (List.mem_cons_self _ _)
        · exact ih (some a) t (fun x hx => hd x (List.mem_cons_of_mem _ hx)) c h
      · rw [hm] at hc
        simp only [] at hc
        rcases List.mem_cons.mp hc with h | h
        · subst h; decide
        · exact ih _ _ (fun x hx => hd x (List.mem_of_mem_drop hx)) c h

theorem map_keeps_digit_free {f : Char → Char} (hf : ∀ c, f c = c ∨ f c = ' ')
    {l : List Char} (hd : ∀ c ∈ l, isDigitC c = false) :
    ∀ c ∈ l.map f, isDigitC c = false := by
  intro c hc
  rcases List.mem_map.mp hc with ⟨a, ha, rfl⟩
  rcases hf a with h | h
  · rw [h]; exact hd a ha
  · rw [h]; decide

theorem mem_of_mem_splitPartsAux (fuel : Nat) :
    ∀ (cs : List Char) (p : List Char) (c : Char),
      p ∈ splitPartsAux fuel cs → c ∈ p → c ∈ cs := by
  induction fuel with
  | zero =>
    intro cs p c hp hc
    simp only [splitPartsAux, List.mem_singleton] at hp
    subst hp; exact hc
  | succ n ih =>
    intro cs p c hp hc
    simp only [splitPartsAux] at hp
    rcases hf : findSep cs with _ | ⟨i, m⟩
    · rw [hf] at hp
      simp only [List.mem_singleton] at hp
      subst hp; exact hc
    · rw [hf] at hp
      simp only [] at hp
      rcases List.mem_cons.mp hp with h | h
      · subst h; exact List.mem_of_mem_take hc
      · exact List.mem_of_mem_drop (ih _ p c h hc)

theorem partNumbers_digit_nil {p : List Char} (hd : ∀ c ∈ p, isDigitC c = false) :
    partNumbers p = [] := by
  have hpc : ∀ c ∈ trimList (collapseWS p), isDigitC c = false :=
    fun c hc => collapseWSAux_digit_free p false hd c (mem_of_mem_trimList hc)
  simp only [partNumbers]
  rw [numMatches_digit_nil]
  · rfl
  · split
    · intro c hc
      exact hpc c (List.mem_filter.mp hc).1
    · exact hpc

theorem flatten_nil_of_all {L : List (List ℚ)} (h : ∀ l ∈ L, l = []) : L.flatten = [] := by
  induction L with
  | nil => rfl
  | cons a t ih =>
    rw [List.flatten_cons, h a (List.mem_cons_self _ _), List.nil_append]
    exact ih fun l hl => h l (List.mem_cons_of_mem _ hl)

theorem parseTokens_digit_nil {text : List Char}
    (h : ∀ c ∈ text, isAnyDigit c = false) : parseTokens text = [] := by
  have hdf : ∀ c ∈ text, isDigitC c = false := fun c hc => (isAnyDigit_split (h c hc)).1
  have h1 : ∀ c ∈ replaceWords wordAlts1 none text, isDigitC c = false :=
    replaceWordsAux_digit_free wordAlts1 text.length none text hdf
  have h2 : ∀ c ∈ replaceWords wordAlts2 none (replaceWords wordAlts1 none text),
      isDigitC c = false :=
    replaceWordsAux_digit_free wordAlts2 (replaceWords wordAlts1 none text).length none
      (replaceWords wordAlts1 none text) h1
  have h3 : ∀ c ∈ replaceCurrencySym
      (replaceWords wordAlts2 none (replaceWords wordAlts1 none text)),
      isDigitC c = false :=
    map_keeps_digit_free
      (fun c => by
        split
        · exact Or.inr rfl
        · exact Or.inl rfl) h2
  have h4 : ∀ c ∈ (replaceCurrencySym
      (replaceWords wordAlts2 none (replaceWords wordAlts1 none text))).map stripChar,
      isDigitC c = false :=
    map_keeps_digit_free
      (fun c => by
        unfold stripChar
        split
        · exact Or.inl rfl
        · exact Or.inr rfl) h3
  simp only [parseTokens]
  rw [normalizeDigits_eq_self h]
  apply flatten_nil_of_all
  intro l hl
  rcases List.mem_map.mp hl with ⟨q, hq, rfl⟩
  apply partNumbers_digit_nil
  intro c hc
  exact h4 c (mem_of_mem_splitPartsAux _ _ q c hq hc)

theorem parseAmount_digit_none {line : List Char}
    (h : ∀ c ∈ line, isAnyDigit c = false) : parseAmount line = none :=
  (parseAmount_none_iff line).mpr (parseTokens_digit_nil h)

theorem rightmostLarge_digit_none {line : List Char}
    (h : ∀ c ∈ line, isAnyDigit c = false) : rightmostLarge line = none := by
  have hdf : ∀ c ∈ line, isDigitC c = false := fun c hc => (isAnyDigit_split (h c hc)).1
  unfold rightmostLarge
  rw [normalizeDigits_eq_self h, numMatches_digit_nil hdf]
  rfl

theorem admissibleAmount_digit_none {line : List Char}
    (h : ∀ c ∈ line, isAnyDigit c = false) : admissibleAmount line = none := by
  have hl : lineAmount line = none := by
    unfold lineAmount
    rw [rightmostLarge_digit_none h]
    simp only []
    exact parseAmount_digit_none h
  unfold admissibleAmount
  rw [hl]

theorem processLine_none_of_no_amount {lines nls : List (List Char)} {i : Nat}
    {line : List Char} (h : admissibleAmount line = none) :
    processLine lines nls none i line = none := by
  simp only [processLine]
  split
  · rfl
  · rw [h]

theorem foldl_processLine_none (lines nls : List (List Char)) :
    ∀ ps : List (Nat × List Char), (∀ p ∈ ps, admissibleAmount p.2 = none) →
      ps.foldl (fun best p => processLine lines nls best p.1 p.2) none = none := by
  intro ps
  induction ps with
  | nil => intro _; rfl
  | cons p t ih =>
    intro h
    rw [List.foldl_cons, processLine_none_of_no_amount (h p (List.mem_cons_self _ _))]
    exact ih fun x hx => h x (List.mem_cons_of_mem _ hx)

theorem snd_mem_of_mem_enumFrom {α : Type} :
    ∀ (l : List α) (n : Nat) (p : Nat × α), p ∈ l.enumFrom n → p.2 ∈ l := by
  intro l
  induction l with
  | nil => intro n p hp; simp [List.enumFrom] at hp
  | cons a t ih =>
    intro n p hp
    simp only [List.enumFrom] at hp
    rcases List.mem_cons.mp hp with h | h
    · subst h; exact List.mem_cons_self _ _
    · exact List.mem_cons_of_mem _ (ih (n + 1) p h)

theorem bestCand_none_of_no_amount {lines nls : List (List Char)}
    (h : ∀ l ∈ lines, admissibleAmount l = none) : bestCand lines nls = none := by
  unfold bestCand
  apply foldl_processLine_none
  intro p hp
  exact h p.2 (snd_mem_of_mem_enumFrom lines 0 p hp)

theorem prePass_digit_none {line : List Char}
    (hd : ∀ c ∈ line, isDigitC c = false) : prePass line = none := by
  have h4 : prePass4 line = none := by
    unfold prePass4
    split
    · rw [List.findSome?_eq_none_iff]
      intro col hcol
      rw [List.mem_reverse] at hcol
      rcases List.mem_map.mp hcol with ⟨c0, hc0, rfl⟩
      have hcd : ∀ c ∈ trimList c0, isDigitC c = false := fun c hc =>
        hd c (mem_of_mem_splitOnChar hc0 (mem_of_mem_trimList hc))
      rw [firstDigitRun_digit_none hcd]
    · rfl
  have h3 : prePass3 line = none := by
    unfold prePass3
    rw [regexCapture_digit_none (by simp [alefItems]) hd]
    exact h4
  have h2 : prePass2 line = none := by
    unfold prePass2
    rw [regexCapture_digit_none (by simp [simpleItems]) hd]
    exact h3
  unfold prePass
  rw [regexCapture_digit_none (by simp [tableRowItems]) hd]
  exact h2

theorem mem_getD_of_lines {lines : List (List Char)} {i : Nat} {c : Char}
    (h : c ∈ lines.getD i []) : ∃ l ∈ lines, c ∈ l := by
  induction lines generalizing i with
  | nil =>
    rw [List.getD_nil] at h
    exact absurd h (List.not_mem_nil c)
  | cons a t ih =>
    cases i with
    | zero =>
      rw [List.getD_cons_zero] at h
      exact ⟨a, List.mem_cons_self _ _, h⟩
    | succ n =>
      rw [List.getD_cons_succ] at h
      rcases ih h with ⟨l, hl, hc⟩
      exact ⟨l, List.mem_cons_of_mem _ hl, hc⟩

theorem prePassResult_digit_none {lines nls : List (List Char)}
    (h : ∀ i : Nat, ∀ c ∈ lines.getD i [], isDigitC c = false) :
    prePassResult lines nls = none := by
  unfold prePassResult
  rcases hl : (totalHeaderIndices nls).getLast? with _ | lastIdx
  · rfl
  · simp only []
    rw [prePass_digit_none (h lastIdx)]
    rfl

theorem mem_splitLines_subset {cs : List Char} {l : List Char} {c : Char}
    (hl : l ∈ splitLines cs) (hc : c ∈ l) : c ∈ cs := by
  unfold splitLines at hl
  exact mem_of_mem_splitOnChar (List.mem_filter.mp hl).1 hc

theorem lastLinesStage_no_amount {cs : List Char} {lines : List (List Char)}
    (h : ∀ l ∈ lines, parseAmount l = none) :
    lastLinesStage cs lines = ⟨none, detectCurrency cs, 0⟩ := by
  have hfs : (lines.drop (lines.length - 5)).reverse.findSome? (fun l =>
      match parseAmount l with
      | some a => if 0 < a then some (a, detectCurrency l) else none
      | none => none) = none := by
    rw [List.findSome?_eq_none_iff]
    intro l hl
    rw [List.mem_reverse] at hl
    rw [h l (List.mem_of_mem_drop hl)]
  simp only [lastLinesStage]
  rw [hfs]

theorem detectCurrency_ne_empty (cs : List Char) : detectCurrency cs ≠ "" := by
  unfold detectCurrency
  rcases hf : currencyRules.findSome? (fun r =>
      if r.1.any (fun alt => ciOccursIn cs alt) then some r.2 else none) with _ | code
  · rw [hf]
    decide
  · rw [hf]
    simp only []
    rw [List.findSome?_eq_some_iff] at hf
    obtain ⟨pre, r, post, heq, hr, -⟩ := hf
    have hmem : r ∈ currencyRules := by
      rw [heq]
      exact List.mem_append_right _ (List.mem_cons_self _ _)
    fin_cases hmem <;> split_ifs at hr <;>
      first
        | (obtain rfl := Option.some.inj hr; decide)
        | exact absurd hr (by simp)

/-- Claim C9: on any input containing no digit of any supported script
(hence on every empty, whitespace-only or entirely non-numeric input),
`extractAmount` degrades to the null outcome: amount `null`, confidence
`0`, and a non-empty currency code; every stage returns normally (the
model is total, so no path can throw). -/
theorem C9_no_digits_degrades (s : String)
    (h : ∀ c ∈ s.data, isAnyDigit c = false) :
    (extractAmount s).amount = none ∧ (extractAmount s).confidence = 0 ∧
    (extractAmount s).currency ≠ "" := by
  have hlines : ∀ l ∈ splitLines s.data, ∀ c ∈ l, isAnyDigit c = false :=
    fun l hl c hc => h c (mem_splitLines_subset hl hc)
  have hgetD : ∀ i : Nat, ∀ c ∈ (splitLines s.data).getD i [], isDigitC c = false := by
    intro i c hc
    rcases mem_getD_of_lines hc with ⟨l, hl, hcl⟩
    exact (isAnyDigit_split (hlines l hl c hcl)).1
  have hpre : prePassResult (splitLines s.data)
      ((splitLines s.data).map normalizeLine) = none :=
    prePassResult_digit_none hgetD
  have hadm : ∀ l ∈ splitLines s.data, admissibleAmount l = none :=
    fun l hl => admissibleAmount_digit_none (hlines l hl)
  have hbc : bestCand (splitLines s.data) ((splitLines s.data).map normalizeLine) = none :=
    bestCand_none_of_no_amount hadm
  have hpa : ∀ l ∈ splitLines s.data, parseAmount l = none :=
    fun l hl => (parseAmount_none_iff l).mpr (parseTokens_digit_nil (hlines l hl))
  have hlast : lastLinesStage s.data (splitLines s.data) =
      ⟨none, detectCurrency s.data, 0⟩ := lastLinesStage_no_amount hpa
  have hres : extractAmountL s.data = ⟨none, "EUR", 0⟩ ∨
      extractAmountL s.data = ⟨none, detectCurrency s.data, 0⟩ := by
    simp only [extractAmountL]
    split
    · exact Or.inl rfl
    · rw [hpre]
      simp only []
      rw [hbc]
      simp only []
      rw [hlast]
      exact Or.inr rfl
  rcases hres with he | he
  · have he2 : extractAmount s = ⟨none, "EUR", 0⟩ := he
    rw [he2]
    exact ⟨rfl, rfl, by decide⟩
  · have he2 : extractAmount s = ⟨none, detectCurrency s.data, 0⟩ := he
    rw [he2]
    exact ⟨rfl, rfl, detectCurrency_ne_empty _⟩

theorem C9_no_digits_degrades_witness :
    (∀ c ∈ ("hello\nworld").data, isAnyDigit c = false) ∧
    ((extractAmount "hello\nworld").amount = none ∧
      (extractAmount "hello\nworld").confidence = 0 ∧
      (extractAmount "hello\nworld").currency ≠ "") :=
  ⟨by decide, C9_no_digits_degrades "hello\nworld" (by decide)⟩
